import Mathlib

/-!
Verification of the lkjmc command-block placement script
(`src/lkjmc/main.py`).

The development shallowly embeds the script's core logic:

* `escape_command_string` — payload escaping for NBT embedding;
* `parse_commands_from_file` — the line parser (regex
  `# move, *(-?\d+\.?\d*), *(-?\d+\.?\d*), *(-?\d+\.?\d*)` matched as a
  prefix of the stripped line, with Python `int(float(group))`
  conversion);
* the `__main__` placement loop — a state machine over
  (base coordinates, overall counter, per-stack counter) emitting
  `fill`/`setblock` command strings.

Strings of the script are modelled as `List Char` where character-level
reasoning is needed and as `String` for rendered output.  The numeric
conversion `int(float(group))` is modelled at two levels: `pyFloat`
gives the exact decimal value of a literal, and `pyFloatIEEE` /
`intFloatIEEE` apply CPython's IEEE binary64 rounding on top of it,
including overflow to infinity and the `OverflowError` that `int(inf)`
raises (uncaught by the script's `except ValueError`).  `classifyLine`
and `parseLines` describe the parser loop under exact arithmetic;
`classifyLinePy` and `parseLinesPy` describe it under full CPython
float semantics, including the crash path.
-/

namespace Lkjmc

/-! ### Python string primitives -/

/-- The ASCII whitespace characters recognised by Python `str.strip()`
(the Unicode extras play no role in the files handled here). -/
def pyIsSpace (c : Char) : Bool :=
  c == ' ' || c == '\t' || c == '\n' || c == '\r' || c == '\x0b' || c == '\x0c'

/-- Python `str.strip()`: drop leading and trailing whitespace. -/
def pyStrip (s : List Char) : List Char :=
  ((s.dropWhile pyIsSpace).reverse.dropWhile pyIsSpace).reverse

/-- Python `str.startswith(pat)` on character lists. -/
def startsWith : List Char → List Char → Bool
  | [], _ => true
  | _ :: _, [] => false
  | p :: ps, c :: cs => p == c && startsWith ps cs

/-- Match a literal pattern at the front of the input and return the
rest of the input, mirroring the literal part of a `re.match`. -/
def dropLit : List Char → List Char → Option (List Char)
  | [], s => some s
  | _ :: _, [] => none
  | p :: ps, c :: cs => if p = c then dropLit ps cs else none

/-- The regex fragment `" *"`: greedily consume spaces. -/
def dropSpaces (s : List Char) : List Char := s.dropWhile (· == ' ')

/-- The literal head of the move regex, `"# move,"`. -/
def moveMarker : List Char := ['#', ' ', 'm', 'o', 'v', 'e', ',']

/-- The comment marker `"# comment"` tested by `str.startswith`. -/
def commentMarker : List Char := ['#', ' ', 'c', 'o', 'm', 'm', 'e', 'n', 't']

/-! ### Numeric conversion: Python `int(float(s))` -/

/-- Value of a digit string, most significant digit first. -/
def digitsToNat : List Char → Nat
  | [] => 0
  | c :: cs => (c.toNat - '0'.toNat) * 10 ^ cs.length + digitsToNat cs

/-- The unsigned part of the exact decimal value of a Python float
literal on the digits/point fragment of its grammar.  Exponents,
`inf`/`nan`, underscores and surrounding whitespace are not modelled —
the strings this is applied to are regex captures that cannot contain
them.  `none` models the `ValueError` Python raises on such a string;
CPython's `float()` additionally rounds the value to binary64, which
`pyFloatIEEE` below models on top of this. -/
def floatTail (s1 : List Char) : Option ℚ :=
  let ds := s1.takeWhile Char.isDigit
  let r1 := s1.dropWhile Char.isDigit
  match r1 with
  | '.' :: r2 =>
    let fs := r2.takeWhile Char.isDigit
    let r3 := r2.dropWhile Char.isDigit
    if r3 = [] ∧ (ds ≠ [] ∨ fs ≠ []) then
      some ((digitsToNat ds : ℚ) + (digitsToNat fs : ℚ) / (10 : ℚ) ^ fs.length)
    else none
  | [] => if ds = [] then none else some ((digitsToNat ds : ℚ))
  | _ => none

/-- The exact decimal value of a Python float literal (see `floatTail`
for the unsigned part): an optional sign followed by digits with an
optional fractional part.  `pyFloatIEEE` adds the binary64 rounding
that CPython's `float()` performs. -/
def pyFloat (s : List Char) : Option ℚ :=
  match s with
  | [] => none
  | c :: t =>
    if c = '-' then (floatTail t).map (fun q => -q)
    else if c = '+' then floatTail t
    else floatTail (c :: t)

/-- Truncation of a rational toward zero, the behaviour of Python
`int()` applied to a (finite) float. -/
def ratTrunc (q : ℚ) : Int := if 0 ≤ q then ⌊q⌋ else -⌊-q⌋

/-- Exact-arithmetic idealisation of Python `int(float(s))`, used by
the exact-layer classifier `classifyLine`: `none` models the
`ValueError` that the parser's warning branch catches.  The faithful
CPython conversion, with binary64 rounding and the `OverflowError`
path, is `intFloatIEEE`; the two agree on numerals of at most 15
digits (see `intFloatIEEE_ok_of_short`). -/
def intFloat (s : List Char) : Option Int := (pyFloat s).map ratTrunc

/-- Truncation of a numeral read directly off its text: the sign
applied to the value of the digits before the decimal point.  This is
the spec-level notion of "float-to-int truncation of the numeral",
defined independently of `pyFloat`. -/
def numeralTrunc (g : List Char) : Int :=
  match g with
  | [] => 0
  | c :: t =>
    if c = '-' then -(digitsToNat (t.takeWhile Char.isDigit) : Int)
    else (digitsToNat ((c :: t).takeWhile Char.isDigit) : Int)

/-! ### Payload escaping (`escape_command_string`) -/

/-- Python `str.replace` for the single-character pattern backslash,
producing a doubled backslash. -/
def replaceBackslash : List Char → List Char
  | [] => []
  | c :: rest =>
    if c = '\\' then '\\' :: '\\' :: replaceBackslash rest
    else c :: replaceBackslash rest

/-- Python `str.replace` for the single-character pattern double-quote,
producing backslash-quote. -/
def replaceQuote : List Char → List Char
  | [] => []
  | c :: rest =>
    if c = '"' then '\\' :: '"' :: replaceQuote rest
    else c :: replaceQuote rest

/-- `escape_command_string`: `cmd_str.replace('\\', '\\\\').replace('"', '\\"')` —
backslashes doubled first, then quotes prefixed with a backslash. -/
def escape_command_string (s : List Char) : List Char :=
  replaceQuote (replaceBackslash s)

/-- Spec-side single-character escaping rule: a backslash becomes two
backslashes, a double-quote becomes backslash-quote, anything else is
kept. -/
def encChar (c : Char) : List Char :=
  if c = '\\' then ['\\', '\\'] else if c = '"' then ['\\', '"'] else [c]

/-- Spec-side escaping: concatenation of `encChar` over the payload. -/
def encAll : List Char → List Char
  | [] => []
  | c :: s => encChar c ++ encAll s

/-- Reversal of the escaping: a backslash is an escape for the
character that follows it. -/
def unescape : List Char → List Char
  | [] => []
  | [c] => [c]
  | c :: c2 :: rest =>
    if c = '\\' then c2 :: unescape rest
    else c :: unescape (c2 :: rest)

/-! ### The line parser (`parse_commands_from_file`) -/

/-- A parsed instruction: `{'type': 'move', 'value': (x, y, z)}` or
`{'type': 'command', 'value': line}`. -/
inductive Instr
  | move (x y z : Int)
  | command (text : List Char)
deriving DecidableEq, Repr

/-- The unsigned part `\d+\.?\d*` of one numeric capture group of the
move regex, matched greedily: returns the captured text and the rest
of the input. -/
def numTail (s1 : List Char) : Option (List Char × List Char) :=
  let ds := s1.takeWhile Char.isDigit
  let r1 := s1.dropWhile Char.isDigit
  if ds = [] then none
  else
    match r1 with
    | '.' :: r2 => some (ds ++ '.' :: r2.takeWhile Char.isDigit,
                         r2.dropWhile Char.isDigit)
    | _ => some (ds, r1)

/-- One numeric capture group with its optional leading minus sign
(see `numTail` for the unsigned part). -/
def parseNum (s : List Char) : Option (List Char × List Char) :=
  match s with
  | [] => none
  | c :: t =>
    if c = '-' then (numTail t).map (fun p => ('-' :: p.1, p.2))
    else numTail (c :: t)

/-- The literal comma separating two capture groups of the move
regex. -/
def expectComma : List Char → Option (List Char)
  | [] => none
  | c :: t => if c = ',' then some t else none

/-- `re.match(r"# move, *(-?\d+\.?\d*), *(-?\d+\.?\d*), *(-?\d+\.?\d*)", t)`:
a prefix match of the stripped line, returning the three captured
groups and the unmatched remainder of the line.  Greedy matching of
each group is equivalent to the regex here: backtracking out of a
maximal group can only expose a digit or a dot, never the comma the
pattern requires next. -/
def matchMoveCore (t : List Char) :
    Option ((List Char × List Char × List Char) × List Char) :=
  match dropLit moveMarker t with
  | none => none
  | some s1 =>
    match parseNum (dropSpaces s1) with
    | none => none
    | some (g1, s3) =>
      match expectComma s3 with
      | none => none
      | some s4 =>
        match parseNum (dropSpaces s4) with
        | none => none
        | some (g2, s6) =>
          match expectComma s6 with
          | none => none
          | some s7 =>
            match parseNum (dropSpaces s7) with
            | none => none
            | some (g3, s9) => some ((g1, g2, g3), s9)

/-- Result of handling one line of the source file. -/
inductive LineResult
  | skip
  | warn (lineNumber : Nat) (text : List Char)
  | instr (i : Instr)
deriving DecidableEq, Repr

/-- The per-line logic of the parser loop: strip the line, skip blanks
and `# comment` lines, try the move regex with `int(float(...))`
conversion of each group (a `ValueError` yields the warning), and fall
through to a literal command. -/
def classifyLine (lineNumber : Nat) (raw : List Char) : LineResult :=
  let t := pyStrip raw
  if t = [] then .skip
  else if startsWith commentMarker t then .skip
  else
    match matchMoveCore t with
    | some ((g1, g2, g3), _) =>
      match intFloat g1, intFloat g2, intFloat g3 with
      | some x, some y, some z => .instr (.move x y z)
      | _, _, _ => .warn lineNumber t
    | none => .instr (.command t)

/-- The parser loop over the file's lines (1-based numbering from
`enumerate(f, 1)`), accumulating instructions and warnings in order. -/
def parseLines : Nat → List (List Char) → List Instr × List (Nat × List Char)
  | _, [] => ([], [])
  | n, l :: ls =>
    match classifyLine n l with
    | .skip => parseLines (n + 1) ls
    | .warn m t => ((parseLines (n + 1) ls).1, (m, t) :: (parseLines (n + 1) ls).2)
    | .instr i => (i :: (parseLines (n + 1) ls).1, (parseLines (n + 1) ls).2)

/-- `parse_commands_from_file`: `none` input models a file that cannot
be opened (`FileNotFoundError`), in which case the function returns
`None`; otherwise the lines are folded through the classifier. -/
def parse_commands_from_file (file : Option (List (List Char))) :
    Option (List Instr × List (Nat × List Char)) :=
  file.map (parseLines 1)

/-! ### The placement state machine (`__main__` loop) -/

/-- The script's fixed configuration constants. -/
structure Config where
  facing : String
  condition : String
  chainAuto : String
  initX : Int
  initY : Int
  initZ : Int
deriving DecidableEq, Repr

/-- The module-level settings of the script. -/
def defaultConfig : Config :=
  { facing := "up", condition := "false", chainAuto := "true",
    initX := 0, initY := 60, initZ := 0 }

/-- The mutable loop state: current base coordinates and the two block
counters. -/
structure PState where
  baseX : Int
  baseY : Int
  baseZ : Int
  blockCounterOverall : Nat
  blockCounterCurrentStack : Nat
deriving DecidableEq, Repr

/-- Loop state before the first instruction. -/
def initialState (cfg : Config) : PState :=
  { baseX := cfg.initX, baseY := cfg.initY, baseZ := cfg.initZ,
    blockCounterOverall := 0, blockCounterCurrentStack := 0 }

/-- One world-edit action computed by the loop, before rendering:
either an area clear (`fill`) with its full region, or a block
placement (`setblock`) with the data the loop computed for it. -/
inductive Directive
  | clear (x1 y1 z1 x2 y2 z2 : Int)
  | place (x y z : Int) (blockId autoStr : String) (escaped : List Char)
deriving DecidableEq, Repr

/-- `'1b' if CHAIN_COMMAND_BLOCK_AUTO.lower() == 'true' else '0b'`. -/
def chainAutoBit (cfg : Config) : String :=
  if cfg.chainAuto.toLower = "true" then "1b" else "0b"

/-- One iteration of the instruction loop: a `move` optionally emits a
clear (only when `y <= 128`), relocates the base and resets the stack
counter; a `command` emits one placement at the current base (kind and
auto flag decided by the stack counter) and then increments `baseY`. -/
def stepInstr (cfg : Config) (st : PState) : Instr → PState × List Directive
  | .move x y z =>
    ({ baseX := x, baseY := y, baseZ := z,
       blockCounterOverall := st.blockCounterOverall,
       blockCounterCurrentStack := 0 },
     if y ≤ 128 then [Directive.clear x y z x 128 z] else [])
  | .command txt =>
    let stack := st.blockCounterCurrentStack + 1
    let blockId := if stack = 1 then "minecraft:repeating_command_block"
                   else "minecraft:chain_command_block"
    let autoStr := if stack = 1 then "0b" else chainAutoBit cfg
    ({ baseX := st.baseX, baseY := st.baseY + 1, baseZ := st.baseZ,
       blockCounterOverall := st.blockCounterOverall + 1,
       blockCounterCurrentStack := stack },
     [Directive.place st.baseX st.baseY st.baseZ blockId autoStr
        (escape_command_string txt)])

/-- The whole instruction loop, returning the final state and the
directives in emission order. -/
def runMachine (cfg : Config) : PState → List Instr → PState × List Directive
  | st, [] => (st, [])
  | st, i :: is =>
    ((runMachine cfg (stepInstr cfg st i).1 is).1,
     (stepInstr cfg st i).2 ++ (runMachine cfg (stepInstr cfg st i).1 is).2)

/-! ### Rendering (`fill_command`, `minecraft_setblock_cmd`) -/

/-- `f"fill {x1} {y1} {z1} {x2} {y2} {z2} minecraft:air replace"`. -/
def renderClear (x1 y1 z1 x2 y2 z2 : Int) : String :=
  s!"fill {x1} {y1} {z1} {x2} {y2} {z2} minecraft:air replace"

/-- `f"[facing=...,conditional=...]"` built from the lower-cased
configuration values. -/
def blockStatesStr (cfg : Config) : String :=
  let f := cfg.facing.toLower
  let c := cfg.condition.toLower
  s!"[facing={f},conditional={c}]"

/-- `f"\x7bCommand:\"...\",auto:...\x7d"`: the NBT data block holding
the escaped payload and the auto flag. -/
def nbtDataStr (escaped : List Char) (autoStr : String) : String :=
  let e := String.mk escaped
  s!"\x7bCommand:\"{e}\",auto:{autoStr}\x7d"

/-- `f"setblock {x} {y} {z} {id}{states}{nbt} replace"`. -/
def renderPlacement (cfg : Config) (x y z : Int) (blockId autoStr : String)
    (escaped : List Char) : String :=
  let states := blockStatesStr cfg
  let nbt := nbtDataStr escaped autoStr
  s!"setblock {x} {y} {z} {blockId}{states}{nbt} replace"

/-- Render one directive to the command string the script sends. -/
def renderDirective (cfg : Config) : Directive → String
  | .clear x1 y1 z1 x2 y2 z2 => renderClear x1 y1 z1 x2 y2 z2
  | .place x y z blockId autoStr escaped =>
    renderPlacement cfg x y z blockId autoStr escaped

/-! ### Top-level run (`__main__` control flow) -/

/-- How a run of the script ends (ignoring I/O pacing): the source
cannot be opened, the source held no instructions, or the full list of
command strings sent to the game. -/
inductive RunOutcome
  | sourceMissing
  | noInstructions
  | processed (commands : List String)
deriving DecidableEq, Repr

/-- The `__main__` control flow after window focus: parse, stop on a
missing file, stop (without error) on an empty instruction list, else
run the placement loop and send every rendered command. -/
def mainRun (cfg : Config) (file : Option (List (List Char))) : RunOutcome :=
  match parse_commands_from_file file with
  | none => .sourceMissing
  | some (instrs, _) =>
    if instrs = [] then .noInstructions
    else .processed (((runMachine cfg (initialState cfg) instrs).2).map
      (renderDirective cfg))

/-! ### Spec-side observation helpers -/

/-- The `(blockId, autoStr)` pairs of the placement directives, in
order. -/
def placeKinds : List Directive → List (String × String)
  | [] => []
  | .place _ _ _ blockId autoStr _ :: ds => (blockId, autoStr) :: placeKinds ds
  | .clear _ _ _ _ _ _ :: ds => placeKinds ds

/-- The expected `(blockId, autoStr)` pairs per the specification: the
Boolean tracks "no command has occurred since the last move (or run
start)", and the first command of each stack is the repeating block. -/
def specKinds (autoBit : String) : Bool → List Instr → List (String × String)
  | _, [] => []
  | _, Instr.move _ _ _ :: is => specKinds autoBit true is
  | isFirst, Instr.command _ :: is =>
    (if isFirst then ("minecraft:repeating_command_block", "0b")
     else ("minecraft:chain_command_block", autoBit)) :: specKinds autoBit false is

/-- The clear directives of an emission list, in order. -/
def clearsOf : List Directive → List Directive
  | [] => []
  | Directive.clear x1 y1 z1 x2 y2 z2 :: ds =>
    Directive.clear x1 y1 z1 x2 y2 z2 :: clearsOf ds
  | Directive.place _ _ _ _ _ _ :: ds => clearsOf ds

/-- The target coordinates of the placement directives, in order. -/
def placeTargets : List Directive → List (Int × Int × Int)
  | [] => []
  | Directive.place x y z _ _ _ :: ds => (x, y, z) :: placeTargets ds
  | Directive.clear _ _ _ _ _ _ :: ds => placeTargets ds

/-- Shape of a move-regex capture group: an optional minus sign, at
least one digit, then optionally a decimal point followed by zero or
more digits. -/
def groupShape (g : List Char) : Prop :=
  ∃ (neg : Bool) (ds : List Char) (dot : Bool) (fs : List Char),
    g = (if neg then ['-'] else []) ++ ds ++
      (if dot then '.' :: fs else []) ∧
    ds ≠ [] ∧ (∀ c ∈ ds, c.isDigit) ∧ (∀ c ∈ fs, c.isDigit) ∧
    (dot = false → fs = [])

/-- A line the parser skips: blank after stripping, or a `# comment`
line. -/
def skipLine (l : List Char) : Prop :=
  pyStrip l = [] ∨ startsWith commentMarker (pyStrip l) = true

/-! ### CPython float semantics: IEEE-754 binary64 rounding

`pyFloat` above gives the exact decimal value of a float literal.
CPython's `float()` additionally rounds that value to the nearest IEEE
binary64 double (ties to even) and overflows to infinity beyond the
double range, and `int()` of an infinity raises `OverflowError` — which
the script's `except ValueError` does not catch.  The definitions below
model that faithfully. -/

/-- Round a rational to the nearest integer, ties to even. -/
def roundHalfEven (m : ℚ) : Int :=
  let n := ⌊m⌋
  if m - n < 1 / 2 then n
  else if (1 : ℚ) / 2 < m - n then n + 1
  else if n % 2 = 0 then n else n + 1

/-- The binary exponent of a positive rational: the unique `e` with
`2 ^ e ≤ q < 2 ^ (e + 1)`, computed from the bit lengths of numerator
and denominator. -/
def dblExp (q : ℚ) : Int :=
  let e0 : Int := (Nat.log2 q.num.natAbs : Int) - (Nat.log2 q.den : Int)
  if q < (2 : ℚ) ^ e0 then e0 - 1 else e0

/-- Round a positive rational to the IEEE binary64 grid (round to
nearest, ties to even, unbounded exponent above, subnormal grid below
`2 ^ (-1022)`).  The overflow cutoff is applied by the caller. -/
def roundPos (q : ℚ) : ℚ :=
  let e := max (dblExp q) (-1022)
  ((roundHalfEven (q * (2 : ℚ) ^ (52 - e)) : ℤ) : ℚ) * (2 : ℚ) ^ (e - 52)

/-- Round any rational to the IEEE binary64 grid (sign-symmetric). -/
def roundToDouble (q : ℚ) : ℚ :=
  if q = 0 then 0
  else if 0 < q then roundPos q
  else -(roundPos (-q))

/-- The smallest magnitude that overflows a binary64 after rounding:
a rounded result of `2 ^ 1024` or more becomes infinity. -/
def maxFloatBound : ℚ := (2 : ℚ) ^ (1024 : ℕ)

/-- The value of a CPython float: a representable finite double (held
exactly as a rational) or an infinity. -/
inductive FloatVal
  | finite (q : ℚ)
  | inf
  | negInf
deriving DecidableEq

/-- CPython `float(s)`: parse the literal exactly (`pyFloat`), then
round to binary64; values at or beyond `2 ^ 1024` in magnitude become
infinities.  `none` models `ValueError`. -/
def pyFloatIEEE (s : List Char) : Option FloatVal :=
  match pyFloat s with
  | none => none
  | some q =>
    let r := roundToDouble q
    if maxFloatBound ≤ r then some FloatVal.inf
    else if r ≤ -maxFloatBound then some FloatVal.negInf
    else some (FloatVal.finite r)

/-- Outcome of CPython `int(float(s))`: a value, a `ValueError` from
`float()` on a malformed string, or the `OverflowError` that `int()`
raises on an infinity. -/
inductive IntConv
  | ok (v : Int)
  | valueError
  | overflowError
deriving DecidableEq, Repr

/-- CPython `int(float(s))` with its two failure modes. -/
def intFloatIEEE (s : List Char) : IntConv :=
  match pyFloatIEEE s with
  | none => IntConv.valueError
  | some FloatVal.inf => IntConv.overflowError
  | some FloatVal.negInf => IntConv.overflowError
  | some (FloatVal.finite q) => IntConv.ok (ratTrunc q)

/-- Result of handling one line under full CPython float semantics:
as `LineResult`, plus `crash` for the uncaught `OverflowError` (the
script's `except ValueError` does not catch it, so it aborts the whole
parse). -/
inductive LineResultPy
  | skip
  | warn (lineNumber : Nat) (text : List Char)
  | instr (i : Instr)
  | crash
deriving DecidableEq, Repr

/-- The per-line logic of the parser loop under full CPython float
semantics.  The three `int(float(...))` conversions run left to right;
the first `ValueError` is caught as the warning, while an
`OverflowError` escapes the `except ValueError` handler and crashes. -/
def classifyLinePy (lineNumber : Nat) (raw : List Char) : LineResultPy :=
  let t := pyStrip raw
  if t = [] then .skip
  else if startsWith commentMarker t then .skip
  else
    match matchMoveCore t with
    | some ((g1, g2, g3), _) =>
      match intFloatIEEE g1 with
      | .valueError => .warn lineNumber t
      | .overflowError => .crash
      | .ok x =>
        match intFloatIEEE g2 with
        | .valueError => .warn lineNumber t
        | .overflowError => .crash
        | .ok y =>
          match intFloatIEEE g3 with
          | .valueError => .warn lineNumber t
          | .overflowError => .crash
          | .ok z => .instr (.move x y z)
    | none => .instr (.command t)

/-- The parser loop under full CPython float semantics: `none` means an
uncaught `OverflowError` aborted the run, so no instruction list is
returned at all. -/
def parseLinesPy : Nat → List (List Char) → Option (List Instr × List (Nat × List Char))
  | _, [] => some ([], [])
  | n, l :: ls =>
    match classifyLinePy n l with
    | .crash => none
    | .skip => parseLinesPy (n + 1) ls
    | .warn m t => (parseLinesPy (n + 1) ls).map (fun p => (p.1, (m, t) :: p.2))
    | .instr i => (parseLinesPy (n + 1) ls).map (fun p => (i :: p.1, p.2))

/-- A 400-digit numeral, `1` followed by 399 zeros: its value exceeds
the binary64 range, so CPython `float()` returns infinity on it. -/
def hugeNumeral : List Char := '1' :: List.replicate 399 '0'

/-- A move line whose first capture is the 400-digit numeral: under
CPython semantics, `int(float(...))` raises an uncaught
`OverflowError` on it. -/
def hugeMoveLine : List Char := ("# move, ".toList) ++ hugeNumeral ++ (", 2, 3".toList)

/-! ### Lemmas about the escaping functions -/

theorem escape_cons (c : Char) (s : List Char) :
    escape_command_string (c :: s) = encChar c ++ escape_command_string s := by
  by_cases hb : c = '\\'
  · subst hb
    simp [escape_command_string, replaceBackslash, replaceQuote, encChar]
  · by_cases hq : c = '"'
    · subst hq
      simp [escape_command_string, replaceBackslash, replaceQuote, encChar]
    · simp [escape_command_string, replaceBackslash, replaceQuote, encChar, hb, hq]

theorem escape_eq_encAll (s : List Char) :
    escape_command_string s = encAll s := by
  induction s with
  | nil => rfl
  | cons c s ih => rw [escape_cons, encAll, ih]

theorem unescape_cons_of_ne (c : Char) (t : List Char) (h : c ≠ '\\') :
    unescape (c :: t) = c :: unescape t := by
  cases t with
  | nil => rfl
  | cons d t => simp [unescape, h]

theorem unescape_encChar (c : Char) (t : List Char) :
    unescape (encChar c ++ t) = c :: unescape t := by
  by_cases hb : c = '\\'
  · subst hb; simp [encChar, unescape]
  · by_cases hq : c = '"'
    · subst hq; simp [encChar, unescape]
    · rw [encChar, if_neg hb, if_neg hq]
      exact unescape_cons_of_ne c t hb

theorem unescape_escape (s : List Char) :
    unescape (escape_command_string s) = s := by
  induction s with
  | nil => rfl
  | cons c s ih => rw [escape_cons, unescape_encChar, ih]

/-! ### Lemmas about digits and truncation -/

theorem toNat_sub_le_of_isDigit (c : Char) (h : c.isDigit = true) :
    c.toNat - '0'.toNat ≤ 9 := by
  simp [Char.isDigit] at h
  obtain ⟨h1, h2⟩ := h
  have h1' : (48 : Nat) ≤ c.val.toNat := h1
  have h2' : c.val.toNat ≤ (57 : Nat) := h2
  have h0 : '0'.toNat = 48 := rfl
  have hv : c.toNat = c.val.toNat := rfl
  omega

theorem digitsToNat_lt (fs : List Char) (h : ∀ c ∈ fs, c.isDigit = true) :
    digitsToNat fs < 10 ^ fs.length := by
  induction fs with
  | nil => simp [digitsToNat]
  | cons c cs ih =>
    have hc : c.toNat - '0'.toNat ≤ 9 :=
      toNat_sub_le_of_isDigit c (h c (by simp))
    have ihh := ih (fun x hx => h x (by simp [hx]))
    have hp : 0 < 10 ^ cs.length := pow_pos (by norm_num) cs.length
    simp only [digitsToNat, List.length_cons, pow_succ]
    nlinarith

theorem ratTrunc_natCast (n : Nat) : ratTrunc (n : ℚ) = (n : Int) := by
  rw [ratTrunc, if_pos (by positivity)]
  exact Int.floor_natCast n

theorem ratTrunc_neg (q : ℚ) : ratTrunc (-q) = -(ratTrunc q) := by
  rcases lt_trichotomy q 0 with h | h | h
  · rw [ratTrunc, if_pos (by linarith), ratTrunc, if_neg (by linarith), neg_neg]
  · subst h; simp [ratTrunc]
  · by_cases h0 : q = 0
    · subst h0; simp [ratTrunc]
    · rw [ratTrunc, if_neg (by intro hh; exact h0 (le_antisymm (by linarith) (by linarith))),
        ratTrunc, if_pos (by linarith), neg_neg]

theorem ratTrunc_add_frac (I : Nat) (f : ℚ) (h0 : 0 ≤ f) (h1 : f < 1) :
    ratTrunc ((I : ℚ) + f) = (I : Int) := by
  rw [ratTrunc, if_pos (by positivity)]
  rw [Int.floor_eq_iff]
  constructor
  · push_cast; linarith
  · push_cast; linarith

/-- The exact value of a fractional digit block lies in `[0, 1)`. -/
theorem frac_bounds (fs : List Char) (h : ∀ c ∈ fs, c.isDigit = true) :
    0 ≤ (digitsToNat fs : ℚ) / (10 : ℚ) ^ fs.length ∧
      (digitsToNat fs : ℚ) / (10 : ℚ) ^ fs.length < 1 := by
  constructor
  · positivity
  · rw [div_lt_one (by positivity)]
    have := digitsToNat_lt fs h
    calc (digitsToNat fs : ℚ) < ((10 ^ fs.length : Nat) : ℚ) := by exact_mod_cast this
      _ = (10 : ℚ) ^ fs.length := by push_cast; ring

/-! ### Lemmas about `takeWhile`/`dropWhile` on digit blocks -/

theorem takeWhile_append_all (p : Char → Bool) (ds t : List Char)
    (h : ∀ c ∈ ds, p c = true) :
    (ds ++ t).takeWhile p = ds ++ t.takeWhile p := by
  induction ds with
  | nil => simp
  | cons c cs ih =>
    have hc : p c = true := h c (by simp)
    simp only [List.cons_append, List.takeWhile_cons_of_pos hc, List.cons.injEq, true_and]
    exact ih (fun x hx => h x (by simp [hx]))

theorem dropWhile_append_all (p : Char → Bool) (ds t : List Char)
    (h : ∀ c ∈ ds, p c = true) :
    (ds ++ t).dropWhile p = t.dropWhile p := by
  induction ds with
  | nil => simp
  | cons c cs ih =>
    have hc : p c = true := h c (by simp)
    simp only [List.cons_append, List.dropWhile_cons_of_pos hc]
    exact ih (fun x hx => h x (by simp [hx]))

/-! ### Lemmas about the numeric group matcher -/

theorem floatTail_dot (ds fs : List Char) (hds : ds ≠ [])
    (hdsd : ∀ c ∈ ds, c.isDigit = true) (hfs : ∀ c ∈ fs, c.isDigit = true) :
    floatTail (ds ++ '.' :: fs) =
      some ((digitsToNat ds : ℚ) + (digitsToNat fs : ℚ) / (10 : ℚ) ^ fs.length) := by
  have hdot : ¬(Char.isDigit '.' = true) := by decide
  have h1 : (ds ++ '.' :: fs).takeWhile Char.isDigit = ds := by
    rw [takeWhile_append_all Char.isDigit ds _ hdsd,
      List.takeWhile_cons_of_neg hdot, List.append_nil]
  have h2 : (ds ++ '.' :: fs).dropWhile Char.isDigit = '.' :: fs := by
    rw [dropWhile_append_all Char.isDigit ds _ hdsd,
      List.dropWhile_cons_of_neg hdot]
  have h3 : fs.takeWhile Char.isDigit = fs := List.takeWhile_eq_self_iff.mpr hfs
  have h4 : fs.dropWhile Char.isDigit = [] := List.dropWhile_eq_nil_iff.mpr hfs
  simp only [floatTail, h1, h2, h3, h4]
  simp [hds]

theorem floatTail_nodot (ds : List Char) (hds : ds ≠ [])
    (hdsd : ∀ c ∈ ds, c.isDigit = true) :
    floatTail ds = some ((digitsToNat ds : ℚ)) := by
  have h1 : ds.takeWhile Char.isDigit = ds := List.takeWhile_eq_self_iff.mpr hdsd
  have h2 : ds.dropWhile Char.isDigit = [] := List.dropWhile_eq_nil_iff.mpr hdsd
  simp only [floatTail, h1, h2]
  rw [if_neg hds]

theorem numTail_spec (s1 g r : List Char) (h : numTail s1 = some (g, r)) :
    s1 = g ++ r ∧
    ∃ (ds fs : List Char) (dot : Bool),
      g = ds ++ (if dot then '.' :: fs else []) ∧
      ds ≠ [] ∧ (∀ c ∈ ds, c.isDigit = true) ∧ (∀ c ∈ fs, c.isDigit = true) ∧
      (dot = false → fs = []) ∧
      g.takeWhile Char.isDigit = ds ∧
      floatTail g =
        some ((digitsToNat ds : ℚ) + (digitsToNat fs : ℚ) / (10 : ℚ) ^ fs.length) ∧
      ratTrunc ((digitsToNat ds : ℚ) + (digitsToNat fs : ℚ) / (10 : ℚ) ^ fs.length) =
        (digitsToNat ds : Int) := by
  have hsp := List.takeWhile_append_dropWhile Char.isDigit s1
  have hdsd : ∀ c ∈ s1.takeWhile Char.isDigit, c.isDigit = true :=
    fun c hc => List.mem_takeWhile_imp hc
  simp only [numTail] at h
  by_cases hds : s1.takeWhile Char.isDigit = []
  · rw [if_pos hds] at h; exact absurd h (by simp)
  · rw [if_neg hds] at h
    split at h
    · -- the remainder after the digits starts with a decimal point
      rename_i r2 heq
      obtain ⟨hg, hr⟩ : g = s1.takeWhile Char.isDigit ++ '.' :: r2.takeWhile Char.isDigit ∧
          r = r2.dropWhile Char.isDigit := by
        simp only [Option.some.injEq, Prod.mk.injEq] at h
        exact ⟨h.1.symm, h.2.symm⟩
      have hfs : ∀ c ∈ r2.takeWhile Char.isDigit, c.isDigit = true :=
        fun c hc => List.mem_takeWhile_imp hc
      have hval := floatTail_dot (s1.takeWhile Char.isDigit)
        (r2.takeWhile Char.isDigit) hds hdsd hfs
      have hfb := frac_bounds (r2.takeWhile Char.isDigit) hfs
      refine ⟨?_, s1.takeWhile Char.isDigit, r2.takeWhile Char.isDigit, true,
        by simp [hg], hds, hdsd, hfs, by simp, ?_, ?_⟩
      · rw [hg, hr]
        conv_lhs => rw [← hsp, heq,
          ← List.takeWhile_append_dropWhile Char.isDigit r2]
        simp
      · have hdot : ¬(Char.isDigit '.' = true) := by decide
        rw [hg, takeWhile_append_all Char.isDigit _ _ hdsd,
          List.takeWhile_cons_of_neg hdot, List.append_nil]
      · exact ⟨by rw [hg]; exact hval, ratTrunc_add_frac _ _ hfb.1 hfb.2⟩
    · -- no decimal point follows the digits
      obtain ⟨hg, hr⟩ : g = s1.takeWhile Char.isDigit ∧ r = s1.dropWhile Char.isDigit := by
        simp only [Option.some.injEq, Prod.mk.injEq] at h
        exact ⟨h.1.symm, h.2.symm⟩
      have hzero : (digitsToNat ([] : List Char) : ℚ) /
          (10 : ℚ) ^ (List.length ([] : List Char)) = 0 := by
        simp [digitsToNat]
      refine ⟨by rw [hg, hr]; exact hsp.symm,
        s1.takeWhile Char.isDigit, [], false, by simp [hg], hds, hdsd, by simp,
        fun _ => rfl, ?_, ?_, ?_⟩
      · rw [hg]; exact List.takeWhile_eq_self_iff.mpr hdsd
      · rw [hg, floatTail_nodot _ hds hdsd, hzero, add_zero]
      · rw [hzero, add_zero]; exact ratTrunc_natCast _

/-- A digit character is neither the minus nor the plus sign. -/
theorem isDigit_ne_sign (c : Char) (h : c.isDigit = true) : c ≠ '-' ∧ c ≠ '+' := by
  constructor
  · intro hc; subst hc; exact absurd h (by decide)
  · intro hc; subst hc; exact absurd h (by decide)

/-- Count of digit characters in a shaped capture group. -/
theorem countP_shaped (ds fs : List Char) (dot : Bool)
    (hdsd : ∀ c ∈ ds, c.isDigit = true) (hfsd : ∀ c ∈ fs, c.isDigit = true)
    (hdotf : dot = false → fs = []) :
    (ds ++ (if dot then '.' :: fs else [])).countP Char.isDigit =
      ds.length + fs.length := by
  rw [List.countP_append]
  have h1 : ds.countP Char.isDigit = ds.length := List.countP_eq_length.mpr hdsd
  cases dot with
  | false =>
    rw [hdotf rfl]
    simp [h1]
  | true =>
    have h2 : ('.' :: fs).countP Char.isDigit = fs.length := by
      rw [List.countP_cons_of_neg _ _ (by decide)]
      exact List.countP_eq_length.mpr hfsd
    simp [h1, h2]

theorem parseNum_spec (s g r : List Char) (h : parseNum s = some (g, r)) :
    s = g ++ r ∧ groupShape g ∧ intFloat g = some (numeralTrunc g) ∧
    ∃ (neg : Bool) (ds fs : List Char),
      ds ≠ [] ∧ (∀ c ∈ ds, c.isDigit = true) ∧ (∀ c ∈ fs, c.isDigit = true) ∧
      pyFloat g = some (if neg then
          -((digitsToNat ds : ℚ) + (digitsToNat fs : ℚ) / (10 : ℚ) ^ fs.length)
        else ((digitsToNat ds : ℚ) + (digitsToNat fs : ℚ) / (10 : ℚ) ^ fs.length)) ∧
      numeralTrunc g = (if neg then -(digitsToNat ds : Int) else (digitsToNat ds : Int)) ∧
      g.countP Char.isDigit = ds.length + fs.length := by
  cases s with
  | nil => simp [parseNum] at h
  | cons c t =>
    by_cases hc : c = '-'
    · subst hc
      simp only [parseNum, if_pos rfl] at h
      cases hnt : numTail t with
      | none => rw [hnt] at h; simp at h
      | some p =>
        obtain ⟨g0, r0⟩ := p
        rw [hnt] at h
        simp only [Option.map_some', Option.some.injEq, Prod.mk.injEq] at h
        obtain ⟨rfl, rfl⟩ := h
        obtain ⟨hpre, ds, fs, dot, hshape, hds, hdsd, hfsd, hdotf, htw, hq, htr⟩ :=
          numTail_spec t g0 r hnt
        have hpy : pyFloat ('-' :: g0) =
            some (-((digitsToNat ds : ℚ) +
              (digitsToNat fs : ℚ) / (10 : ℚ) ^ fs.length)) := by
          simp only [pyFloat, if_pos rfl]
          rw [hq]; rfl
        have hnum : numeralTrunc ('-' :: g0) = -(digitsToNat ds : Int) := by
          simp [numeralTrunc, htw]
        have hcnt : ('-' :: g0).countP Char.isDigit = ds.length + fs.length := by
          rw [List.countP_cons_of_neg _ _ (by decide), hshape]
          exact countP_shaped ds fs dot hdsd hfsd hdotf
        refine ⟨by rw [hpre]; rfl,
          ⟨true, ds, dot, fs, by simp [hshape], hds, hdsd, hfsd, hdotf⟩, ?_,
          true, ds, fs, hds, hdsd, hfsd, by simpa using hpy, by simpa using hnum, hcnt⟩
        rw [intFloat, hpy, Option.map_some', ratTrunc_neg, htr, hnum]
    · simp only [parseNum] at h
      rw [if_neg hc] at h
      obtain ⟨hpre, ds, fs, dot, hshape, hds, hdsd, hfsd, hdotf, htw, hq, htr⟩ :=
        numTail_spec (c :: t) g r h
      cases ds with
      | nil => exact absurd rfl hds
      | cons d ds2 =>
        have hpre2 := hpre
        rw [hshape] at hpre2
        simp only [List.cons_append, List.append_assoc, List.cons.injEq] at hpre2
        have hd : c.isDigit = true := by
          rw [hpre2.1]; exact hdsd d (by simp)
        obtain ⟨hne1, hne2⟩ := isDigit_ne_sign c hd
        have hg2 : g = c :: (ds2 ++ (if dot then '.' :: fs else [])) := by
          rw [hpre2.1, hshape, List.cons_append]
        have hpy : pyFloat g =
            some ((digitsToNat (d :: ds2) : ℚ) +
              (digitsToNat fs : ℚ) / (10 : ℚ) ^ fs.length) := by
          rw [hg2]
          simp only [pyFloat]
          rw [if_neg hne1, if_neg hne2, ← hg2]
          exact hq
        have hnum : numeralTrunc g = (digitsToNat (d :: ds2) : Int) := by
          rw [hg2]
          simp only [numeralTrunc]
          rw [if_neg hne1, ← hg2, htw]
        have hcnt : g.countP Char.isDigit = (d :: ds2).length + fs.length := by
          rw [hshape]
          exact countP_shaped (d :: ds2) fs dot hdsd hfsd hdotf
        refine ⟨hpre,
          ⟨false, d :: ds2, dot, fs, by simp [hshape], hds, hdsd, hfsd, hdotf⟩, ?_,
          false, d :: ds2, fs, hds, hdsd, hfsd, by simpa using hpy,
          by simpa using hnum, hcnt⟩
        rw [intFloat, hpy, Option.map_some', htr, hnum]

theorem dropLit_eq (p : List Char) :
    ∀ s r, dropLit p s = some r → s = p ++ r := by
  induction p with
  | nil =>
    intro s r h
    simp only [dropLit, Option.some.injEq] at h
    simp [h]
  | cons c cs ih =>
    intro s r h
    cases s with
    | nil => simp [dropLit] at h
    | cons d ds =>
      simp only [dropLit] at h
      by_cases hcd : c = d
      · rw [if_pos hcd] at h
        subst hcd
        simp [ih ds r h]
      · rw [if_neg hcd] at h
        exact absurd h (by simp)

theorem expectComma_eq (s r : List Char) (h : expectComma s = some r) :
    s = ',' :: r := by
  cases s with
  | nil => simp [expectComma] at h
  | cons c t =>
    simp only [expectComma] at h
    by_cases hc : c = ','
    · rw [if_pos hc] at h
      subst hc
      simp only [Option.some.injEq] at h
      rw [h]
    · rw [if_neg hc] at h
      exact absurd h (by simp)

theorem dropSpaces_eq (s : List Char) :
    s = s.takeWhile (· == ' ') ++ dropSpaces s :=
  (List.takeWhile_append_dropWhile _ s).symm

theorem matchMoveCore_spec (t g1 g2 g3 rem : List Char)
    (h : matchMoveCore t = some ((g1, g2, g3), rem)) :
    (∃ p, t = p ++ rem) ∧
    t ≠ [] ∧ startsWith commentMarker t = false ∧
    (∃ s r, parseNum s = some (g1, r)) ∧
    (∃ s r, parseNum s = some (g2, r)) ∧
    (∃ s r, parseNum s = some (g3, r)) := by
  simp only [matchMoveCore] at h
  cases h1 : dropLit moveMarker t with
  | none => simp [h1] at h
  | some s1 =>
    simp only [h1] at h
    cases h2 : parseNum (dropSpaces s1) with
    | none => simp [h2] at h
    | some p1 =>
      obtain ⟨g1x, s3⟩ := p1
      simp only [h2] at h
      cases h3 : expectComma s3 with
      | none => simp [h3] at h
      | some s4 =>
        simp only [h3] at h
        cases h4 : parseNum (dropSpaces s4) with
        | none => simp [h4] at h
        | some p2 =>
          obtain ⟨g2x, s6⟩ := p2
          simp only [h4] at h
          cases h5 : expectComma s6 with
          | none => simp [h5] at h
          | some s7 =>
            simp only [h5] at h
            cases h6 : parseNum (dropSpaces s7) with
            | none => simp [h6] at h
            | some p3 =>
              obtain ⟨g3x, s9⟩ := p3
              simp only [h6] at h
              simp only [Option.some.injEq, Prod.mk.injEq] at h
              obtain ⟨⟨rfl, rfl, rfl⟩, rfl⟩ := h
              have e1 := dropLit_eq moveMarker t s1 h1
              have e23 : s1 = s1.takeWhile (· == ' ') ++ (g1x ++ s3) :=
                (dropSpaces_eq s1).trans (congrArg _ (parseNum_spec _ _ _ h2).1)
              have e4 := expectComma_eq _ _ h3
              have e56 : s4 = s4.takeWhile (· == ' ') ++ (g2x ++ s6) :=
                (dropSpaces_eq s4).trans (congrArg _ (parseNum_spec _ _ _ h4).1)
              have e7 := expectComma_eq _ _ h5
              have e89 : s7 = s7.takeWhile (· == ' ') ++ (g3x ++ s9) :=
                (dropSpaces_eq s7).trans (congrArg _ (parseNum_spec _ _ _ h6).1)
              refine ⟨⟨moveMarker ++ (s1.takeWhile (· == ' ') ++ (g1x ++ ',' ::
                  (s4.takeWhile (· == ' ') ++ (g2x ++ ',' ::
                    (s7.takeWhile (· == ' ') ++ g3x))))), ?_⟩,
                by rw [e1]; simp [moveMarker], by rw [e1]; rfl,
                ⟨dropSpaces s1, s3, h2⟩, ⟨dropSpaces s4, s6, h4⟩,
                ⟨dropSpaces s7, s9, h6⟩⟩
              conv_lhs => rw [e1, e23, e4, e56, e7, e89]
              simp [List.append_assoc]

theorem classifyLine_move (n : Nat) (raw g1 g2 g3 rem : List Char)
    (h : matchMoveCore (pyStrip raw) = some ((g1, g2, g3), rem)) :
    classifyLine n raw =
      .instr (.move (numeralTrunc g1) (numeralTrunc g2) (numeralTrunc g3)) := by
  obtain ⟨-, hne, hcm, ⟨s1, r1, hp1⟩, ⟨s2, r2, hp2⟩, ⟨s3, r3, hp3⟩⟩ :=
    matchMoveCore_spec _ _ _ _ _ h
  have hf1 := (parseNum_spec _ _ _ hp1).2.2.1
  have hf2 := (parseNum_spec _ _ _ hp2).2.2.1
  have hf3 := (parseNum_spec _ _ _ hp3).2.2.1
  simp only [classifyLine]
  rw [if_neg hne, if_neg (by simp [hcm])]
  simp only [h, hf1, hf2, hf3]

theorem classifyLine_ne_warn (n : Nat) (raw : List Char) (m : Nat) (tx : List Char) :
    classifyLine n raw ≠ .warn m tx := by
  by_cases hne : pyStrip raw = []
  · simp [classifyLine, hne]
  · by_cases hcm : startsWith commentMarker (pyStrip raw) = true
    · simp [classifyLine, hne, hcm]
    · cases hm : matchMoveCore (pyStrip raw) with
      | none => simp [classifyLine, hne, hcm, hm]
      | some p =>
        obtain ⟨⟨u1, u2, u3⟩, urem⟩ := p
        rw [classifyLine_move n raw u1 u2 u3 urem hm]
        simp

/-! ### Lemmas about the placement state machine -/

theorem placeKinds_append (a b : List Directive) :
    placeKinds (a ++ b) = placeKinds a ++ placeKinds b := by
  induction a with
  | nil => rfl
  | cons d ds ih =>
    cases d with
    | clear x1 y1 z1 x2 y2 z2 => simp [placeKinds, ih]
    | place x y z bid astr e => simp [placeKinds, ih]

theorem runMachine_placeKinds (cfg : Config) (is : List Instr) :
    ∀ st : PState,
      placeKinds (runMachine cfg st is).2 =
        specKinds (chainAutoBit cfg) (st.blockCounterCurrentStack == 0) is := by
  induction is with
  | nil => intro st; rfl
  | cons i is ih =>
    intro st
    cases i with
    | move x y z =>
      simp only [runMachine, stepInstr]
      rw [placeKinds_append]
      by_cases hy : y ≤ 128
      · rw [if_pos hy]
        simp [placeKinds, specKinds, ih]
      · rw [if_neg hy]
        simp [placeKinds, specKinds, ih]
    | command txt =>
      simp only [runMachine, stepInstr]
      rw [placeKinds_append]
      have h0 : (st.blockCounterCurrentStack + 1 == 0) = false := by simp
      by_cases hs : st.blockCounterCurrentStack = 0
      · simp [hs, specKinds, placeKinds, ih, h0]
      · have h1 : ¬(st.blockCounterCurrentStack + 1 = 1) := by omega
        simp [hs, h1, specKinds, placeKinds, ih, h0]

theorem runMachine_auto_mem (cfg : Config) (is : List Instr) :
    ∀ (st : PState) (x y z : Int) (blockId autoStr : String) (escaped : List Char),
      Directive.place x y z blockId autoStr escaped ∈ (runMachine cfg st is).2 →
      autoStr = "0b" ∨ autoStr = "1b" := by
  induction is with
  | nil =>
    intro st x y z bid a e h
    simp [runMachine] at h
  | cons i is ih =>
    intro st x y z bid a e h
    simp only [runMachine] at h
    rw [List.mem_append] at h
    cases h with
    | inl h =>
      cases i with
      | move mx my mz =>
        simp only [stepInstr] at h
        by_cases hy : my ≤ 128
        · rw [if_pos hy] at h; simp at h
        · rw [if_neg hy] at h; simp at h
      | command txt =>
        simp only [stepInstr, List.mem_singleton] at h
        have ha : a = if st.blockCounterCurrentStack + 1 = 1 then "0b"
            else chainAutoBit cfg := by
          cases h; rfl
        rw [ha]
        by_cases h1 : st.blockCounterCurrentStack + 1 = 1
        · left; rw [if_pos h1]
        · rw [if_neg h1, chainAutoBit]
          by_cases h2 : cfg.chainAuto.toLower = "true"
          · right; rw [if_pos h2]
          · left; rw [if_neg h2]
    | inr h => exact ih _ x y z bid a e h

/-! ### Lemmas about skipped lines -/

theorem classifyLine_skip (n : Nat) (l : List Char) (h : skipLine l) :
    classifyLine n l = .skip := by
  by_cases ht : pyStrip l = []
  · simp [classifyLine, ht]
  · have hsw : startsWith commentMarker (pyStrip l) = true := by
      cases h with
      | inl h1 => exact absurd h1 ht
      | inr h2 => exact h2
    simp [classifyLine, ht, hsw]

theorem parseLines_all_skip (ls : List (List Char)) :
    ∀ n, (∀ l ∈ ls, skipLine l) → parseLines n ls = ([], []) := by
  induction ls with
  | nil => intro n h; rfl
  | cons l ls ih =>
    intro n h
    have hc := classifyLine_skip n l (h l (by simp))
    simp only [parseLines, hc]
    exact ih (n + 1) (fun x hx => h x (by simp [hx]))

/-! ### Further helper lemmas -/

theorem classifyLine_command (n : Nat) (raw : List Char)
    (hne : pyStrip raw ≠ []) (hcm : startsWith commentMarker (pyStrip raw) = false)
    (hm : matchMoveCore (pyStrip raw) = none) :
    classifyLine n raw = .instr (.command (pyStrip raw)) := by
  simp only [classifyLine]
  rw [if_neg hne, if_neg (by simp [hcm])]
  simp only [hm]

theorem toString_string_eq (s : String) : toString s = s := rfl

/-! ### Lemmas about binary64 rounding -/

theorem roundHalfEven_intCast (n : Int) : roundHalfEven (n : ℚ) = n := by
  simp [roundHalfEven]

theorem roundHalfEven_err (m : ℚ) :
    |((roundHalfEven m : ℤ) : ℚ) - m| ≤ 1 / 2 := by
  have h1 : (⌊m⌋ : ℚ) ≤ m := Int.floor_le m
  have h2 : m < ⌊m⌋ + 1 := Int.lt_floor_add_one m
  simp only [roundHalfEven]
  by_cases hlt : m - (⌊m⌋ : ℚ) < 1 / 2
  · rw [if_pos hlt, abs_le]
    constructor <;> push_cast <;> linarith
  · by_cases hgt : (1 : ℚ) / 2 < m - (⌊m⌋ : ℚ)
    · rw [if_neg hlt, if_pos hgt, abs_le]
      constructor <;> push_cast <;> linarith
    · have he : m - (⌊m⌋ : ℚ) = 1 / 2 :=
        le_antisymm (not_lt.mp hgt) (not_lt.mp hlt)
      rw [if_neg hlt, if_neg hgt]
      by_cases hev : ⌊m⌋ % 2 = 0
      · rw [if_pos hev, abs_le]
        constructor <;> push_cast <;> linarith
      · rw [if_neg hev, abs_le]
        constructor <;> push_cast <;> linarith

theorem dblExp_bracket (q : ℚ) (hq : 0 < q) :
    (2 : ℚ) ^ dblExp q ≤ q ∧ q < (2 : ℚ) ^ (dblExp q + 1) := by
  have hnum : 0 < q.num := Rat.num_pos.mpr hq
  have hden : 0 < q.den := q.pos
  have hna : q.num.natAbs ≠ 0 := Int.natAbs_ne_zero.mpr (ne_of_gt hnum)
  have ha1 : 2 ^ Nat.log2 q.num.natAbs ≤ q.num.natAbs := Nat.log2_self_le hna
  have ha2 : q.num.natAbs < 2 ^ (Nat.log2 q.num.natAbs + 1) := Nat.lt_log2_self
  have hb1 : 2 ^ Nat.log2 q.den ≤ q.den := Nat.log2_self_le (by omega)
  have hb2 : q.den < 2 ^ (Nat.log2 q.den + 1) := Nat.lt_log2_self
  have hnum_eq : ((q.num.natAbs : ℕ) : ℚ) = (q.num : ℚ) := by
    rw [Int.cast_natAbs]
    exact congrArg (fun z : ℤ => (z : ℚ)) (abs_of_nonneg hnum.le)
  have hq_eq : q = (q.num.natAbs : ℚ) / (q.den : ℚ) := by
    rw [hnum_eq, Rat.num_div_den]
  have hdenQ : (0 : ℚ) < (q.den : ℚ) := by exact_mod_cast hden
  have hnaQ : (0 : ℚ) < (q.num.natAbs : ℚ) := by
    have : 0 < q.num.natAbs := Nat.pos_of_ne_zero hna
    exact_mod_cast this
  have hA1 : (2 : ℚ) ^ (Nat.log2 q.num.natAbs : ℤ) ≤ (q.num.natAbs : ℚ) := by
    rw [zpow_natCast]
    exact_mod_cast ha1
  have hA2 : (q.num.natAbs : ℚ) < (2 : ℚ) ^ ((Nat.log2 q.num.natAbs : ℤ) + 1) := by
    have : ((Nat.log2 q.num.natAbs : ℤ) + 1) = ((Nat.log2 q.num.natAbs + 1 : ℕ) : ℤ) := by
      push_cast; ring
    rw [this, zpow_natCast]
    exact_mod_cast ha2
  have hB1 : (2 : ℚ) ^ (Nat.log2 q.den : ℤ) ≤ (q.den : ℚ) := by
    rw [zpow_natCast]
    exact_mod_cast hb1
  have hB2 : (q.den : ℚ) < (2 : ℚ) ^ ((Nat.log2 q.den : ℤ) + 1) := by
    have : ((Nat.log2 q.den : ℤ) + 1) = ((Nat.log2 q.den + 1 : ℕ) : ℤ) := by
      push_cast; ring
    rw [this, zpow_natCast]
    exact_mod_cast hb2
  have htwo : (2 : ℚ) ≠ 0 := by norm_num
  have hupper : q < (2 : ℚ) ^ ((Nat.log2 q.num.natAbs : ℤ) - (Nat.log2 q.den : ℤ) + 1) :=
    calc q = (q.num.natAbs : ℚ) / (q.den : ℚ) := hq_eq
      _ < (2 : ℚ) ^ ((Nat.log2 q.num.natAbs : ℤ) + 1) / (2 : ℚ) ^ (Nat.log2 q.den : ℤ) := by
          rw [div_lt_div_iff₀ hdenQ (zpow_pos (by norm_num) _)]
          calc (q.num.natAbs : ℚ) * (2 : ℚ) ^ (Nat.log2 q.den : ℤ)
              < (2 : ℚ) ^ ((Nat.log2 q.num.natAbs : ℤ) + 1) *
                  (2 : ℚ) ^ (Nat.log2 q.den : ℤ) :=
                mul_lt_mul_of_pos_right hA2 (zpow_pos (by norm_num) _)
            _ ≤ (2 : ℚ) ^ ((Nat.log2 q.num.natAbs : ℤ) + 1) * (q.den : ℚ) :=
                mul_le_mul_of_nonneg_left hB1 (zpow_pos (by norm_num : (0:ℚ) < 2) _).le
      _ = (2 : ℚ) ^ ((Nat.log2 q.num.natAbs : ℤ) - (Nat.log2 q.den : ℤ) + 1) := by
          rw [← zpow_sub₀ htwo]
          congr 1
          ring
  have hlower : (2 : ℚ) ^ ((Nat.log2 q.num.natAbs : ℤ) - (Nat.log2 q.den : ℤ) - 1) < q :=
    calc (2 : ℚ) ^ ((Nat.log2 q.num.natAbs : ℤ) - (Nat.log2 q.den : ℤ) - 1)
        = (2 : ℚ) ^ (Nat.log2 q.num.natAbs : ℤ) / (2 : ℚ) ^ ((Nat.log2 q.den : ℤ) + 1) := by
          rw [← zpow_sub₀ htwo]
          congr 1
          ring
      _ < (q.num.natAbs : ℚ) / (q.den : ℚ) := by
          rw [div_lt_div_iff₀ (zpow_pos (by norm_num) _) hdenQ]
          calc (2 : ℚ) ^ (Nat.log2 q.num.natAbs : ℤ) * (q.den : ℚ)
              ≤ (q.num.natAbs : ℚ) * (q.den : ℚ) :=
                mul_le_mul_of_nonneg_right hA1 hdenQ.le
            _ < (q.num.natAbs : ℚ) * (2 : ℚ) ^ ((Nat.log2 q.den : ℤ) + 1) :=
                mul_lt_mul_of_pos_left hB2 hnaQ
      _ = q := hq_eq.symm
  simp only [dblExp]
  by_cases hcase : q < (2 : ℚ) ^ ((Nat.log2 q.num.natAbs : ℤ) - (Nat.log2 q.den : ℤ))
  · rw [if_pos hcase]
    constructor
    · exact le_of_lt hlower
    · have harith : (Nat.log2 q.num.natAbs : ℤ) - (Nat.log2 q.den : ℤ) - 1 + 1 =
          (Nat.log2 q.num.natAbs : ℤ) - (Nat.log2 q.den : ℤ) := by ring
      rw [harith]
      exact hcase
  · rw [if_neg hcase]
    exact ⟨not_lt.mp hcase, hupper⟩

theorem bracket_unique (q : ℚ) (e f : ℤ) (he1 : (2 : ℚ) ^ e ≤ q)
    (he2 : q < (2 : ℚ) ^ (e + 1)) (hf1 : (2 : ℚ) ^ f ≤ q)
    (hf2 : q < (2 : ℚ) ^ (f + 1)) : e = f := by
  by_contra hne
  rcases lt_or_gt_of_ne hne with h | h
  · have : (2 : ℚ) ^ (e + 1) ≤ (2 : ℚ) ^ f :=
      zpow_le_zpow_right₀ (by norm_num) (by omega)
    linarith
  · have : (2 : ℚ) ^ (f + 1) ≤ (2 : ℚ) ^ e :=
      zpow_le_zpow_right₀ (by norm_num) (by omega)
    linarith

theorem roundPos_eq (q : ℚ) (e : ℤ) (hq : 0 < q) (h1 : (2 : ℚ) ^ e ≤ q)
    (h2 : q < (2 : ℚ) ^ (e + 1)) (he : -1022 ≤ e) :
    roundPos q =
      ((roundHalfEven (q * (2 : ℚ) ^ (52 - e)) : ℤ) : ℚ) * (2 : ℚ) ^ (e - 52) := by
  have hbr := dblExp_bracket q hq
  have heq : dblExp q = e := bracket_unique q _ e hbr.1 hbr.2 h1 h2
  simp only [roundPos, heq, max_eq_left he]

theorem roundPos_err (q : ℚ) (e : ℤ) (hq : 0 < q) (h1 : (2 : ℚ) ^ e ≤ q)
    (h2 : q < (2 : ℚ) ^ (e + 1)) (he : -1022 ≤ e) :
    |roundPos q - q| ≤ (2 : ℚ) ^ (e - 53) := by
  rw [roundPos_eq q e hq h1 h2 he]
  have h := roundHalfEven_err (q * (2 : ℚ) ^ (52 - e))
  have htwo : (2 : ℚ) ≠ 0 := by norm_num
  have hpow : (0 : ℚ) < (2 : ℚ) ^ (e - 52) := zpow_pos (by norm_num) _
  have key : ((roundHalfEven (q * (2 : ℚ) ^ (52 - e)) : ℤ) : ℚ) * (2 : ℚ) ^ (e - 52) - q =
      (((roundHalfEven (q * (2 : ℚ) ^ (52 - e)) : ℤ) : ℚ) - q * (2 : ℚ) ^ (52 - e)) *
        (2 : ℚ) ^ (e - 52) := by
    rw [sub_mul, mul_assoc, ← zpow_add₀ htwo]
    norm_num
  rw [key, abs_mul, abs_of_pos hpow]
  calc |((roundHalfEven (q * (2 : ℚ) ^ (52 - e)) : ℤ) : ℚ) - q * (2 : ℚ) ^ (52 - e)| *
        (2 : ℚ) ^ (e - 52)
      ≤ 1 / 2 * (2 : ℚ) ^ (e - 52) := mul_le_mul_of_nonneg_right h hpow.le
    _ = (2 : ℚ) ^ (e - 53) := by
        have hhalf : (1 : ℚ) / 2 = (2 : ℚ) ^ (-1 : ℤ) := by norm_num
        rw [hhalf, ← zpow_add₀ htwo]
        congr 1
        ring

theorem roundToDouble_of_pos (q : ℚ) (hq : 0 < q) : roundToDouble q = roundPos q := by
  rw [roundToDouble, if_neg (ne_of_gt hq), if_pos hq]

theorem roundToDouble_neg_eq (q : ℚ) : roundToDouble (-q) = -roundToDouble q := by
  rcases lt_trichotomy q 0 with h | h | h
  · have hL : roundToDouble (-q) = roundPos (-q) :=
      roundToDouble_of_pos (-q) (by linarith)
    have hR : roundToDouble q = -(roundPos (-q)) := by
      rw [roundToDouble, if_neg (ne_of_lt h), if_neg (by linarith)]
    rw [hL, hR, neg_neg]
  · subst h
    simp [roundToDouble]
  · have hL : roundToDouble (-q) = -(roundPos q) := by
      rw [roundToDouble, if_neg (by intro hc; linarith [neg_eq_zero.mp hc]),
        if_neg (by linarith), neg_neg]
    rw [hL, roundToDouble_of_pos q h]

theorem roundToDouble_natCast_exact (v : ℕ) (hv : 0 < v)
    (hv2 : (v : ℚ) < (2 : ℚ) ^ (53 : ℕ)) : roundToDouble (v : ℚ) = v := by
  have hq : (0 : ℚ) < (v : ℚ) := by exact_mod_cast hv
  obtain ⟨h1, h2⟩ := dblExp_bracket (v : ℚ) hq
  have hone : (1 : ℚ) ≤ (v : ℚ) := by exact_mod_cast hv
  have he0 : 0 ≤ dblExp (v : ℚ) := by
    by_contra hneg
    have hle : dblExp (v : ℚ) + 1 ≤ 0 := by omega
    have : (2 : ℚ) ^ (dblExp (v : ℚ) + 1) ≤ (2 : ℚ) ^ (0 : ℤ) :=
      zpow_le_zpow_right₀ (by norm_num) hle
    simp only [zpow_zero] at this
    linarith
  have he52 : dblExp (v : ℚ) ≤ 52 := by
    by_contra hgt
    have hge : (53 : ℤ) ≤ dblExp (v : ℚ) := by omega
    have hle : (2 : ℚ) ^ (53 : ℤ) ≤ (2 : ℚ) ^ dblExp (v : ℚ) :=
      zpow_le_zpow_right₀ (by norm_num) hge
    have h53 : (2 : ℚ) ^ (53 : ℤ) = (2 : ℚ) ^ (53 : ℕ) := by
      norm_num
    rw [h53] at hle
    linarith
  rw [roundToDouble_of_pos _ hq,
    roundPos_eq _ (dblExp (v : ℚ)) hq h1 h2 (by omega)]
  set e := dblExp (v : ℚ) with he_def
  have hk : (52 - e) = ((52 - e).toNat : ℤ) := (Int.toNat_of_nonneg (by omega)).symm
  have hzp : (2 : ℚ) ^ (52 - e) = (2 : ℚ) ^ ((52 - e).toNat : ℕ) := by
    rw [← zpow_natCast (2 : ℚ) (52 - e).toNat, ← hk]
  have hm : (v : ℚ) * (2 : ℚ) ^ (52 - e) = ((v * 2 ^ (52 - e).toNat : ℕ) : ℚ) := by
    rw [hzp]
    push_cast
    ring
  rw [hm]
  have hint : roundHalfEven ((v * 2 ^ (52 - e).toNat : ℕ) : ℚ) =
      ((v * 2 ^ (52 - e).toNat : ℕ) : ℤ) := by
    have hcast : ((v * 2 ^ (52 - e).toNat : ℕ) : ℚ) =
        (((v * 2 ^ (52 - e).toNat : ℕ) : ℤ) : ℚ) := by
      push_cast
      ring
    rw [hcast]
    exact roundHalfEven_intCast _
  rw [hint]
  push_cast
  rw [mul_assoc]
  have hcollapse : ((2 : ℚ) ^ (52 - e).toNat) * (2 : ℚ) ^ (e - 52) = 1 := by
    rw [← zpow_natCast (2 : ℚ) (52 - e).toNat, ← zpow_add₀ (by norm_num : (2:ℚ) ≠ 0), ← hk]
    norm_num
  rw [hcollapse, mul_one]

/-- Truncation safety: a numeral of at most 15 significant digits
rounds, in binary64, to a value with the same integer part.  `I` is
the value of the integer digits (fewer than `10 ^ dl`), `F` the value
of the `k` fractional digits. -/
theorem roundToDouble_trunc_safe (I F dl k : ℕ)
    (hI : I < 10 ^ dl) (hF : F < 10 ^ k) (hdig : dl + k ≤ 15) :
    (I : ℚ) ≤ roundToDouble ((I : ℚ) + (F : ℚ) / (10 : ℚ) ^ k) ∧
    roundToDouble ((I : ℚ) + (F : ℚ) / (10 : ℚ) ^ k) < (I : ℚ) + 1 := by
  have htk : (0 : ℚ) < (10 : ℚ) ^ k := by positivity
  by_cases hF0 : F = 0
  · subst hF0
    simp only [Nat.cast_zero, zero_div, add_zero]
    by_cases hI0 : I = 0
    · subst hI0
      simp only [Nat.cast_zero]
      rw [roundToDouble, if_pos rfl]
      norm_num
    · have hIpos : 0 < I := Nat.pos_of_ne_zero hI0
      have h15 : (I : ℚ) < (2 : ℚ) ^ (53 : ℕ) := by
        have h1 : I < 10 ^ 15 := by
          calc I < 10 ^ dl := hI
            _ ≤ 10 ^ 15 := Nat.pow_le_pow_right (by norm_num) (by omega)
        have h2 : (I : ℚ) < ((10 : ℚ)) ^ (15 : ℕ) := by exact_mod_cast h1
        nlinarith [h2]
      rw [roundToDouble_natCast_exact I hIpos h15]
      exact ⟨le_refl _, by linarith⟩
  · have hFpos : 0 < F := Nat.pos_of_ne_zero hF0
    set q : ℚ := (I : ℚ) + (F : ℚ) / (10 : ℚ) ^ k with hq_def
    set u : ℚ := 1 / (10 : ℚ) ^ k with hu_def
    have hu : 0 < u := by rw [hu_def]; positivity
    have hf_low : u ≤ (F : ℚ) / (10 : ℚ) ^ k := by
      rw [hu_def, div_le_div_iff₀ htk htk]
      have h1 : (1 : ℚ) ≤ (F : ℚ) := by exact_mod_cast hFpos
      nlinarith [htk]
    have huv : u * (10 : ℚ) ^ k = 1 := by
      rw [hu_def, one_div, inv_mul_cancel₀ (ne_of_gt htk)]
    have hf_high : (F : ℚ) / (10 : ℚ) ^ k ≤ 1 - u := by
      have hFle : (F : ℚ) ≤ (10 : ℚ) ^ k - 1 := by
        have h1 : F + 1 ≤ 10 ^ k := hF
        have h2 : ((F + 1 : ℕ) : ℚ) ≤ (((10 : ℕ) ^ k : ℕ) : ℚ) := by exact_mod_cast h1
        push_cast at h2
        linarith
      rw [div_le_iff₀ htk]
      have hexp : (1 - u) * (10 : ℚ) ^ k = (10 : ℚ) ^ k - 1 := by
        rw [sub_mul, one_mul, huv]
      rw [hexp]
      exact hFle
    have hfq : 0 < (F : ℚ) / (10 : ℚ) ^ k := lt_of_lt_of_le hu hf_low
    have hq_pos : 0 < q := by
      rw [hq_def]
      have h0 : (0 : ℚ) ≤ (I : ℚ) := by positivity
      linarith
    have hu_min : (1 : ℚ) / (10 : ℚ) ^ (15 : ℕ) ≤ u := by
      rw [hu_def]
      have hle : (10 : ℚ) ^ k ≤ (10 : ℚ) ^ (15 : ℕ) := by
        have h1 : (10 : ℕ) ^ k ≤ 10 ^ 15 := Nat.pow_le_pow_right (by norm_num) (by omega)
        exact_mod_cast h1
      exact one_div_le_one_div_of_le htk hle
    have hq_lt : q < (10 : ℚ) ^ (15 - k : ℕ) := by
      have hIle : (I : ℚ) ≤ (10 : ℚ) ^ (15 - k : ℕ) - 1 := by
        have h1 : I + 1 ≤ 10 ^ dl := hI
        have h2 : (10 : ℕ) ^ dl ≤ 10 ^ (15 - k) := Nat.pow_le_pow_right (by norm_num) (by omega)
        have h3 : ((I + 1 : ℕ) : ℚ) ≤ (((10 : ℕ) ^ (15 - k) : ℕ) : ℚ) :=
          by exact_mod_cast le_trans h1 h2
        push_cast at h3
        linarith
      have hfr : (F : ℚ) / (10 : ℚ) ^ k < 1 := by linarith
      rw [hq_def]
      linarith
    obtain ⟨h1, h2⟩ := dblExp_bracket q hq_pos
    have hqu : u ≤ q := by
      rw [hq_def]
      have h0 : (0 : ℚ) ≤ (I : ℚ) := by positivity
      linarith
    have he : -1022 ≤ dblExp q := by
      by_contra hcon
      have hle : dblExp q + 1 ≤ -1022 := by omega
      have hsmall : (2 : ℚ) ^ (dblExp q + 1) ≤ (2 : ℚ) ^ (-1022 : ℤ) :=
        zpow_le_zpow_right₀ (by norm_num) hle
      have hbound : (2 : ℚ) ^ (-1022 : ℤ) < 1 / (10 : ℚ) ^ (15 : ℕ) := by
        norm_num [zpow_neg]
      have hq_small : q < 1 / (10 : ℚ) ^ (15 : ℕ) :=
        lt_trans (lt_of_lt_of_le h2 hsmall) hbound
      linarith
    have herr := roundPos_err q (dblExp q) hq_pos h1 h2 he
    have herr2 : (2 : ℚ) ^ (dblExp q - 53) ≤ q / (2 : ℚ) ^ (53 : ℕ) := by
      have hsplit : (2 : ℚ) ^ (dblExp q - 53) =
          (2 : ℚ) ^ dblExp q * (2 : ℚ) ^ (-53 : ℤ) := by
        rw [← zpow_add₀ (by norm_num : (2 : ℚ) ≠ 0), sub_eq_add_neg]
      rw [hsplit]
      have hpos53 : (0 : ℚ) < (2 : ℚ) ^ (-53 : ℤ) := zpow_pos (by norm_num) _
      have hmul : (2 : ℚ) ^ dblExp q * (2 : ℚ) ^ (-53 : ℤ) ≤ q * (2 : ℚ) ^ (-53 : ℤ) :=
        mul_le_mul_of_nonneg_right h1 hpos53.le
      have hconv : q * (2 : ℚ) ^ (-53 : ℤ) = q / (2 : ℚ) ^ (53 : ℕ) := by
        rw [zpow_neg, div_eq_mul_inv]
        norm_num
      rw [hconv] at hmul
      exact hmul
    have herr3 : q / (2 : ℚ) ^ (53 : ℕ) < 1 / 8 * u := by
      have h53 : (0 : ℚ) < (2 : ℚ) ^ (53 : ℕ) := by positivity
      have hq2 : q / (2 : ℚ) ^ (53 : ℕ) < (10 : ℚ) ^ (15 - k : ℕ) / (2 : ℚ) ^ (53 : ℕ) := by
        rw [div_lt_div_iff₀ h53 h53]
        nlinarith [hq_lt, h53]
      have hsplit : (10 : ℚ) ^ (15 - k : ℕ) / (2 : ℚ) ^ (53 : ℕ) =
          ((10 : ℚ) ^ (15 : ℕ) / (2 : ℚ) ^ (53 : ℕ)) * u := by
        rw [hu_def, pow_sub₀ (10 : ℚ) (by norm_num) (by omega : k ≤ 15)]
        field_simp
        ring
      have hconst : (10 : ℚ) ^ (15 : ℕ) / (2 : ℚ) ^ (53 : ℕ) < 1 / 8 := by norm_num
      calc q / (2 : ℚ) ^ (53 : ℕ) < (10 : ℚ) ^ (15 - k : ℕ) / (2 : ℚ) ^ (53 : ℕ) := hq2
        _ = ((10 : ℚ) ^ (15 : ℕ) / (2 : ℚ) ^ (53 : ℕ)) * u := hsplit
        _ < 1 / 8 * u := mul_lt_mul_of_pos_right hconst hu
    rw [roundToDouble_of_pos q hq_pos]
    have habs : |roundPos q - q| < 1 / 8 * u := lt_of_le_of_lt (le_trans herr herr2) herr3
    obtain ⟨hab1, hab2⟩ := abs_lt.mp habs
    constructor
    · rw [hq_def] at hab1
      linarith
    · rw [hq_def] at hab2
      linarith

/-! ### Lemmas about the faithful CPython conversion -/

theorem intFloatIEEE_ne_valueError (g : List Char) (q : ℚ) (h : pyFloat g = some q) :
    intFloatIEEE g ≠ IntConv.valueError := by
  simp only [intFloatIEEE, pyFloatIEEE, h]
  by_cases h1 : maxFloatBound ≤ roundToDouble q
  · rw [if_pos h1]; simp
  · rw [if_neg h1]
    by_cases h2 : roundToDouble q ≤ -maxFloatBound
    · rw [if_pos h2]; simp
    · rw [if_neg h2]; simp

theorem intFloatIEEE_finite (g : List Char) (q : ℚ) (h : pyFloat g = some q)
    (h1 : ¬ (maxFloatBound ≤ roundToDouble q))
    (h2 : ¬ (roundToDouble q ≤ -maxFloatBound)) :
    intFloatIEEE g = IntConv.ok (ratTrunc (roundToDouble q)) := by
  simp only [intFloatIEEE, pyFloatIEEE, h]
  rw [if_neg h1, if_neg h2]

/-- On a regex capture of at most 15 digits the faithful CPython
conversion `int(float(g))` succeeds and returns the textual
truncation: the binary64 rounding error is too small to move the
integer part. -/
theorem intFloatIEEE_ok_of_short (s g r : List Char) (h : parseNum s = some (g, r))
    (hlen : g.countP Char.isDigit ≤ 15) :
    intFloatIEEE g = IntConv.ok (numeralTrunc g) := by
  obtain ⟨-, -, -, neg, ds, fs, hds, hdsd, hfsd, hpy, hnum, hcnt⟩ := parseNum_spec s g r h
  have hIlt := digitsToNat_lt ds hdsd
  have hFlt := digitsToNat_lt fs hfsd
  have hdig : ds.length + fs.length ≤ 15 := by rw [← hcnt]; exact hlen
  obtain ⟨hlo, hhi⟩ := roundToDouble_trunc_safe (digitsToNat ds) (digitsToNat fs)
    ds.length fs.length hIlt hFlt hdig
  set q0 : ℚ := (digitsToNat ds : ℚ) + (digitsToNat fs : ℚ) / (10 : ℚ) ^ fs.length
    with hq0
  have hlb : (0 : ℚ) ≤ roundToDouble q0 := le_trans (by positivity) hlo
  have hub : roundToDouble q0 < maxFloatBound := by
    have hIsmall : (digitsToNat ds : ℚ) + 1 ≤ (10 : ℚ) ^ (15 : ℕ) := by
      have h1 : digitsToNat ds + 1 ≤ 10 ^ 15 := by
        have h2 : (10 : ℕ) ^ ds.length ≤ 10 ^ 15 :=
          Nat.pow_le_pow_right (by norm_num) (by omega)
        omega
      have h3 : ((digitsToNat ds + 1 : ℕ) : ℚ) ≤ (((10 : ℕ) ^ (15 : ℕ) : ℕ) : ℚ) := by
        exact_mod_cast h1
      push_cast at h3
      linarith
    have hcmp : (10 : ℚ) ^ (15 : ℕ) < (2 : ℚ) ^ (1024 : ℕ) := by norm_num
    unfold maxFloatBound
    linarith
  have hmaxpos : (0 : ℚ) < maxFloatBound := by unfold maxFloatBound; positivity
  have htr : ratTrunc (roundToDouble q0) = ((digitsToNat ds : ℕ) : ℤ) := by
    rw [ratTrunc, if_pos hlb, Int.floor_eq_iff]
    constructor
    · push_cast
      exact hlo
    · push_cast
      exact hhi
  by_cases hn : neg = true
  · rw [if_pos hn] at hpy hnum
    simp only [intFloatIEEE, pyFloatIEEE, hpy, roundToDouble_neg_eq]
    rw [if_neg (not_le.mpr (by linarith : -roundToDouble q0 < maxFloatBound)),
      if_neg (not_le.mpr (by linarith : -maxFloatBound < -roundToDouble q0))]
    show IntConv.ok (ratTrunc (-roundToDouble q0)) = IntConv.ok (numeralTrunc g)
    rw [ratTrunc_neg, htr, hnum]
  · rw [if_neg hn] at hpy hnum
    simp only [intFloatIEEE, pyFloatIEEE, hpy]
    rw [if_neg (not_le.mpr hub),
      if_neg (not_le.mpr (by linarith : -maxFloatBound < roundToDouble q0))]
    show IntConv.ok (ratTrunc (roundToDouble q0)) = IntConv.ok (numeralTrunc g)
    rw [htr, hnum]

/-- Any rational of at least `2 ^ 1025` still exceeds `2 ^ 1024` after
rounding, so it overflows the binary64 range. -/
theorem roundToDouble_big (q : ℚ) (hq : (2 : ℚ) ^ (1025 : ℕ) ≤ q) :
    maxFloatBound ≤ roundToDouble q := by
  have hq0 : (0 : ℚ) < q := lt_of_lt_of_le (by positivity) hq
  obtain ⟨h1, h2⟩ := dblExp_bracket q hq0
  have he : -1022 ≤ dblExp q := by
    by_contra hcon
    have hle : dblExp q + 1 ≤ -1022 := by omega
    have hsmall : (2 : ℚ) ^ (dblExp q + 1) ≤ (2 : ℚ) ^ (-1022 : ℤ) :=
      zpow_le_zpow_right₀ (by norm_num) hle
    have hone : (2 : ℚ) ^ (-1022 : ℤ) ≤ 1 := by norm_num [zpow_neg]
    have htwo : (1 : ℚ) ≤ (2 : ℚ) ^ (1025 : ℕ) := by norm_num
    linarith
  have herr := roundPos_err q (dblExp q) hq0 h1 h2 he
  have herr2 : (2 : ℚ) ^ (dblExp q - 53) ≤ q * (1 / 2) := by
    have hsplit : (2 : ℚ) ^ (dblExp q - 53) =
        (2 : ℚ) ^ dblExp q * (2 : ℚ) ^ (-53 : ℤ) := by
      rw [← zpow_add₀ (by norm_num : (2 : ℚ) ≠ 0), sub_eq_add_neg]
    rw [hsplit]
    have hv : (2 : ℚ) ^ (-53 : ℤ) ≤ 1 / 2 := by norm_num [zpow_neg]
    have hp : (0 : ℚ) ≤ (2 : ℚ) ^ (-53 : ℤ) := (zpow_pos (by norm_num) _).le
    exact mul_le_mul h1 hv hp hq0.le
  obtain ⟨hab1, hab2⟩ := abs_le.mp herr
  rw [roundToDouble_of_pos q hq0]
  have hnum : (2 : ℚ) ^ (1025 : ℕ) = 2 * (2 : ℚ) ^ (1024 : ℕ) := by norm_num [pow_succ]
  unfold maxFloatBound
  linarith

/-- A captured numeral whose textual truncation reaches `2 ^ 1025`
overflows: `float()` of it is infinite, and `int()` then raises
`OverflowError`. -/
theorem intFloatIEEE_overflow_of_big (s g r : List Char) (h : parseNum s = some (g, r))
    (hbig : (2 : ℚ) ^ (1025 : ℕ) ≤ ((numeralTrunc g : ℤ) : ℚ)) :
    intFloatIEEE g = IntConv.overflowError := by
  obtain ⟨-, -, -, neg, ds, fs, hds, hdsd, hfsd, hpy, hnum, hcnt⟩ := parseNum_spec s g r h
  by_cases hn : neg = true
  · exfalso
    rw [if_pos hn] at hnum
    rw [hnum] at hbig
    have h0 : (((-(digitsToNat ds : ℤ)) : ℤ) : ℚ) ≤ 0 := by
      push_cast
      simp
    have h1 : (0 : ℚ) < (2 : ℚ) ^ (1025 : ℕ) := by positivity
    linarith
  · rw [if_neg hn] at hpy hnum
    set q0 : ℚ := (digitsToNat ds : ℚ) + (digitsToNat fs : ℚ) / (10 : ℚ) ^ fs.length
      with hq0
    have hfge : (0 : ℚ) ≤ (digitsToNat fs : ℚ) / (10 : ℚ) ^ fs.length := by positivity
    have hqge : (2 : ℚ) ^ (1025 : ℕ) ≤ q0 := by
      rw [hnum] at hbig
      rw [hq0]
      push_cast at hbig ⊢
      linarith
    have hover := roundToDouble_big q0 hqge
    simp only [intFloatIEEE, pyFloatIEEE, hpy]
    rw [if_pos hover]

/-! ### Lemmas about the faithful line classifier -/

theorem classifyLinePy_move (n : Nat) (raw g1 g2 g3 rem : List Char) (x y z : Int)
    (h : matchMoveCore (pyStrip raw) = some ((g1, g2, g3), rem))
    (h1 : intFloatIEEE g1 = IntConv.ok x) (h2 : intFloatIEEE g2 = IntConv.ok y)
    (h3 : intFloatIEEE g3 = IntConv.ok z) :
    classifyLinePy n raw = LineResultPy.instr (Instr.move x y z) := by
  obtain ⟨-, hne, hcm, -, -, -⟩ := matchMoveCore_spec _ _ _ _ _ h
  simp only [classifyLinePy]
  rw [if_neg hne, if_neg (by simp [hcm])]
  simp only [h, h1, h2, h3]

theorem classifyLinePy_crash_first (n : Nat) (raw g1 g2 g3 rem : List Char)
    (h : matchMoveCore (pyStrip raw) = some ((g1, g2, g3), rem))
    (h1 : intFloatIEEE g1 = IntConv.overflowError) :
    classifyLinePy n raw = LineResultPy.crash := by
  obtain ⟨-, hne, hcm, -, -, -⟩ := matchMoveCore_spec _ _ _ _ _ h
  simp only [classifyLinePy]
  rw [if_neg hne, if_neg (by simp [hcm])]
  simp only [h, h1]

theorem classifyLinePy_ne_warn (n : Nat) (raw : List Char) (m : Nat) (tx : List Char) :
    classifyLinePy n raw ≠ LineResultPy.warn m tx := by
  by_cases hne : pyStrip raw = []
  · simp [classifyLinePy, hne]
  · by_cases hcm : startsWith commentMarker (pyStrip raw) = true
    · simp [classifyLinePy, hne, hcm]
    · cases hm : matchMoveCore (pyStrip raw) with
      | none => simp [classifyLinePy, hne, hcm, hm]
      | some p =>
        obtain ⟨⟨g1, g2, g3⟩, rem⟩ := p
        obtain ⟨-, -, -, ⟨s1, r1, hp1⟩, ⟨s2, r2, hp2⟩, ⟨s3, r3, hp3⟩⟩ :=
          matchMoveCore_spec _ _ _ _ _ hm
        obtain ⟨-, -, -, n1, d1, f1, -, -, -, hf1, -, -⟩ := parseNum_spec _ _ _ hp1
        obtain ⟨-, -, -, n2, d2, f2, -, -, -, hf2, -, -⟩ := parseNum_spec _ _ _ hp2
        obtain ⟨-, -, -, n3, d3, f3, -, -, -, hf3, -, -⟩ := parseNum_spec _ _ _ hp3
        have h1 := intFloatIEEE_ne_valueError g1 _ hf1
        have h2 := intFloatIEEE_ne_valueError g2 _ hf2
        have h3 := intFloatIEEE_ne_valueError g3 _ hf3
        simp only [classifyLinePy]
        rw [if_neg hne, if_neg hcm]
        simp only [hm]
        cases hc1 : intFloatIEEE g1 with
        | valueError => exact absurd hc1 h1
        | overflowError => simp [hc1]
        | ok x =>
          simp only [hc1]
          cases hc2 : intFloatIEEE g2 with
          | valueError => exact absurd hc2 h2
          | overflowError => simp [hc2]
          | ok y =>
            simp only [hc2]
            cases hc3 : intFloatIEEE g3 with
            | valueError => exact absurd hc3 h3
            | overflowError => simp [hc3]
            | ok z => simp [hc3]

/-! ### Concrete binary64 evaluations -/

/-- The 16-digit numeral `9999999999999999` is exactly halfway between
two representable doubles; ties-to-even rounds it up to `10 ^ 16`. -/
theorem roundToDouble_nines : roundToDouble (9999999999999999 : ℚ) = 10 ^ 16 := by
  have hq : (0 : ℚ) < 9999999999999999 := by norm_num
  have h1 : (2 : ℚ) ^ (53 : ℤ) ≤ 9999999999999999 := by norm_num
  have h2 : (9999999999999999 : ℚ) < (2 : ℚ) ^ ((53 : ℤ) + 1) := by norm_num
  rw [roundToDouble_of_pos _ hq, roundPos_eq _ 53 hq h1 h2 (by norm_num)]
  have hm : (9999999999999999 : ℚ) * (2 : ℚ) ^ ((52 : ℤ) - 53) = 9999999999999999 / 2 := by
    norm_num
  rw [hm]
  have hrhe : roundHalfEven ((9999999999999999 : ℚ) / 2) = 5000000000000000 := by
    have hfl : ⌊(9999999999999999 : ℚ) / 2⌋ = 4999999999999999 := by
      rw [Int.floor_eq_iff]
      constructor <;> norm_num
    simp only [roundHalfEven, hfl]
    rw [if_neg (by norm_num), if_neg (by norm_num), if_neg (by norm_num)]
    norm_num
  rw [hrhe]
  norm_num

theorem intFloatIEEE_nines :
    intFloatIEEE ("9999999999999999".toList) = IntConv.ok 10000000000000000 := by
  have hp : parseNum ("9999999999999999".toList) =
      some ("9999999999999999".toList, []) := by decide
  obtain ⟨-, -, -, neg, ds, fs, hds, hdsd, hfsd, hpy, hnum, hcnt⟩ :=
    parseNum_spec _ _ _ hp
  have hnt : numeralTrunc ("9999999999999999".toList) = 9999999999999999 := by decide
  rw [hnt] at hnum
  by_cases hn : neg = true
  · exfalso
    rw [if_pos hn] at hnum
    omega
  · rw [if_neg hn] at hpy hnum
    have hI : digitsToNat ds = 9999999999999999 := by exact_mod_cast hnum.symm
    have hlen16 : 16 ≤ ds.length := by
      by_contra hcon
      have hlt := digitsToNat_lt ds hdsd
      have h2 : (10 : ℕ) ^ ds.length ≤ 10 ^ 15 :=
        Nat.pow_le_pow_right (by norm_num) (by omega)
      omega
    have hcnt16 : ds.length + fs.length = 16 := by
      rw [← hcnt]
      decide
    have hfs : fs = [] := List.length_eq_zero.mp (by omega)
    subst hfs
    rw [hI] at hpy
    simp only [digitsToNat, List.length_nil, pow_zero, Nat.cast_zero, zero_div,
      add_zero, Nat.cast_ofNat] at hpy
    have hmax1 : ¬ (maxFloatBound ≤ roundToDouble (9999999999999999 : ℚ)) := by
      rw [roundToDouble_nines]
      unfold maxFloatBound
      norm_num
    have hmax2 : ¬ (roundToDouble (9999999999999999 : ℚ) ≤ -maxFloatBound) := by
      rw [roundToDouble_nines]
      unfold maxFloatBound
      norm_num
    rw [intFloatIEEE_finite _ _ hpy hmax1 hmax2, roundToDouble_nines]
    have hc : ((10 : ℚ) ^ 16 : ℚ) = ((10000000000000000 : ℕ) : ℚ) := by norm_num
    rw [hc, ratTrunc_natCast]
    norm_num

theorem intFloatIEEE_ok_one : intFloatIEEE ("1".toList) = IntConv.ok 1 := by
  have h := intFloatIEEE_ok_of_short ("1".toList) ("1".toList) [] (by decide) (by decide)
  rw [h]
  decide

theorem intFloatIEEE_ok_two : intFloatIEEE ("2".toList) = IntConv.ok 2 := by
  have h := intFloatIEEE_ok_of_short ("2".toList) ("2".toList) [] (by decide) (by decide)
  rw [h]
  decide

theorem intFloatIEEE_ok_three : intFloatIEEE ("3".toList) = IntConv.ok 3 := by
  have h := intFloatIEEE_ok_of_short ("3".toList) ("3".toList) [] (by decide) (by decide)
  rw [h]
  decide

set_option maxRecDepth 8000 in
theorem intFloatIEEE_huge : intFloatIEEE hugeNumeral = IntConv.overflowError := by
  apply intFloatIEEE_overflow_of_big hugeNumeral hugeNumeral [] (by decide)
  have hnt : numeralTrunc hugeNumeral = 10 ^ 399 := by decide
  rw [hnt]
  push_cast
  calc (2 : ℚ) ^ (1025 : ℕ) ≤ (2 : ℚ) ^ (1197 : ℕ) :=
        pow_le_pow_right₀ (by norm_num) (by norm_num)
    _ = (8 : ℚ) ^ (399 : ℕ) := by
        rw [show (8 : ℚ) = 2 ^ 3 by norm_num, ← pow_mul]
    _ ≤ (10 : ℚ) ^ (399 : ℕ) := pow_le_pow_left₀ (by norm_num) (by norm_num) _

theorem parseLinesPy_cons_crash (n : Nat) (l : List Char) (ls : List (List Char))
    (h : classifyLinePy n l = LineResultPy.crash) :
    parseLinesPy n (l :: ls) = none := by
  simp only [parseLinesPy, h]

/-! ### Shape of the overlong move line -/

theorem pyStrip_hugeShape (D : List Char) :
    pyStrip (("# move, ".toList) ++ D ++ (", 2, 3".toList)) =
      ("# move, ".toList) ++ D ++ (", 2, 3".toList) := by
  have h1 : (("# move, ".toList) ++ D ++ (", 2, 3".toList)).dropWhile pyIsSpace =
      ("# move, ".toList) ++ D ++ (", 2, 3".toList) := by
    show List.dropWhile pyIsSpace
        ('#' :: ((" move, ".toList) ++ D ++ (", 2, 3".toList))) = _
    rw [List.dropWhile_cons_of_neg (by decide)]
    rfl
  have h2 : (("# move, ".toList) ++ D ++ (", 2, 3".toList)).reverse =
      '3' :: ([' ', ',', '2', ' ', ','] ++
        (D.reverse ++ ("# move, ".toList).reverse)) := by
    rw [List.reverse_append, List.reverse_append]
    rfl
  have h3 : ∀ r : List Char, List.dropWhile pyIsSpace ('3' :: r) = '3' :: r :=
    fun r => List.dropWhile_cons_of_neg (by decide)
  simp only [pyStrip]
  rw [h1, h2, h3, ← h2, List.reverse_reverse]

theorem matchMoveCore_hugeShape (D : List Char) (hD : D ≠ [])
    (hdig : ∀ c ∈ D, c.isDigit = true) :
    matchMoveCore (("# move, ".toList) ++ D ++ (", 2, 3".toList)) =
      some ((D, ['2'], ['3']), []) := by
  obtain ⟨d, D', rfl⟩ := List.exists_cons_of_ne_nil hD
  have hd : d.isDigit = true := hdig d (by simp)
  have hdne : ¬ ((d == ' ') = true) := by
    intro hcc
    have hde : d = ' ' := eq_of_beq hcc
    rw [hde] at hd
    exact absurd hd (by decide)
  have h1 : dropLit moveMarker
      (("# move, ".toList) ++ (d :: D') ++ (", 2, 3".toList)) =
      some (' ' :: d :: (D' ++ ", 2, 3".toList)) := rfl
  have h2 : dropSpaces (' ' :: d :: (D' ++ ", 2, 3".toList)) =
      d :: (D' ++ ", 2, 3".toList) := by
    simp only [dropSpaces, List.dropWhile_cons]
    rw [if_pos (by decide : ((' ' : Char) == ' ') = true), if_neg hdne]
  have h3 : parseNum (d :: (D' ++ ", 2, 3".toList)) =
      numTail (d :: (D' ++ ", 2, 3".toList)) := by
    simp only [parseNum]
    rw [if_neg (isDigit_ne_sign d hd).1]
  have h4 : numTail (d :: (D' ++ ", 2, 3".toList)) =
      some (d :: D', ", 2, 3".toList) := by
    have hta : (d :: (D' ++ ", 2, 3".toList)).takeWhile Char.isDigit = d :: D' := by
      rw [← List.cons_append, takeWhile_append_all Char.isDigit (d :: D') _ hdig]
      rw [show (", 2, 3".toList).takeWhile Char.isDigit = [] from rfl, List.append_nil]
    have hda : (d :: (D' ++ ", 2, 3".toList)).dropWhile Char.isDigit =
        ", 2, 3".toList := by
      rw [← List.cons_append, dropWhile_append_all Char.isDigit (d :: D') _ hdig]
      rfl
    simp only [numTail, hta, hda]
    rw [if_neg (by simp : ¬(d :: D' = []))]
    rfl
  simp only [matchMoveCore, h1, h2, h3, h4]
  rfl

/-! ### Claim theorems -/

/-- C1 (counterexample): on the line `# move, abc, 1, 2` the parser
produces NO warning and DOES add an instruction — the line fails the
move regex (its first group is not a numeral), so the `else` branch
classifies it as a literal `Command`.  This contradicts the claim that
such a line yields exactly one warning and no instruction. -/
theorem c1_counterexample :
    parseLines 1 [("# move, abc, 1, 2".toList)] =
      ([Instr.command ("# move, abc, 1, 2".toList)], []) := by decide

/-- C1 (amended): every line whose stripped text is non-empty, is not
a `# comment` line and does not match the move regex — in particular a
`# move` line with a non-numeric group such as `# move, abc, 1, 2` —
is classified as a literal `Command` carrying the stripped text, no
warning is produced, and all subsequent lines are parsed unchanged
(under both the exact-value and the full CPython classifiers). -/
theorem c1_amended_command_line (n : Nat) (raw : List Char) (rest : List (List Char))
    (hne : pyStrip raw ≠ []) (hcm : startsWith commentMarker (pyStrip raw) = false)
    (hm : matchMoveCore (pyStrip raw) = none) :
    classifyLine n raw = LineResult.instr (Instr.command (pyStrip raw)) ∧
    classifyLinePy n raw = LineResultPy.instr (Instr.command (pyStrip raw)) ∧
    (∀ m tx, classifyLine n raw ≠ LineResult.warn m tx) ∧
    parseLines n (raw :: rest) =
      (Instr.command (pyStrip raw) :: (parseLines (n + 1) rest).1,
        (parseLines (n + 1) rest).2) ∧
    parseLinesPy n (raw :: rest) =
      (parseLinesPy (n + 1) rest).map
        (fun p => (Instr.command (pyStrip raw) :: p.1, p.2)) := by
  have hc : classifyLine n raw = LineResult.instr (Instr.command (pyStrip raw)) :=
    classifyLine_command n raw hne hcm hm
  have hcp : classifyLinePy n raw = LineResultPy.instr (Instr.command (pyStrip raw)) := by
    simp only [classifyLinePy]
    rw [if_neg hne, if_neg (by simp [hcm])]
    simp only [hm]
  refine ⟨hc, hcp, fun m tx => classifyLine_ne_warn n raw m tx, ?_, ?_⟩
  · simp only [parseLines, hc]
  · simp only [parseLinesPy, hcp]

/-- C1 witness: on `# move, abc, 1, 2` followed by a well-formed move
line, the first line becomes a `Command` instruction, no warning
appears, and the second line is still parsed. -/
theorem c1_witness :
    classifyLine 1 ("# move, abc, 1, 2".toList) =
      LineResult.instr (Instr.command (pyStrip ("# move, abc, 1, 2".toList))) ∧
    classifyLinePy 1 ("# move, abc, 1, 2".toList) =
      LineResultPy.instr (Instr.command (pyStrip ("# move, abc, 1, 2".toList))) ∧
    (∀ m tx, classifyLine 1 ("# move, abc, 1, 2".toList) ≠ LineResult.warn m tx) ∧
    parseLines 1 (("# move, abc, 1, 2".toList) :: [("# move, 1, 2, 3".toList)]) =
      (Instr.command (pyStrip ("# move, abc, 1, 2".toList)) ::
          (parseLines (1 + 1) [("# move, 1, 2, 3".toList)]).1,
        (parseLines (1 + 1) [("# move, 1, 2, 3".toList)]).2) ∧
    parseLinesPy 1 (("# move, abc, 1, 2".toList) :: [("# move, 1, 2, 3".toList)]) =
      (parseLinesPy (1 + 1) [("# move, 1, 2, 3".toList)]).map
        (fun p => (Instr.command (pyStrip ("# move, abc, 1, 2".toList)) :: p.1, p.2)) :=
  c1_amended_command_line 1 ("# move, abc, 1, 2".toList) [("# move, 1, 2, 3".toList)]
    (by decide) (by decide) (by decide)

/-- C2: over any instruction sequence and configuration, the
`(blockId, auto)` pair of every placement is `repeating`/`0b` exactly
for the first command since the most recent move (or run start), and
`chain` with the configured chain-auto bit (`1b` iff the flag string
lower-cases to `"true"`) for every other command. -/
theorem c2_block_kinds (cfg : Config) (is : List Instr) :
    placeKinds (runMachine cfg (initialState cfg) is).2 =
      specKinds (if cfg.chainAuto.toLower = "true" then "1b" else "0b") true is := by
  rw [runMachine_placeKinds cfg is (initialState cfg)]
  rfl

/-- C3: the escaping doubles every backslash and then prefixes every
double-quote with a backslash (in that order); equivalently it is the
per-character encoding `encChar` applied throughout, and reversing the
escaping recovers the original payload exactly (round-trip law). -/
theorem c3_escape_roundtrip (s : List Char) :
    escape_command_string s = replaceQuote (replaceBackslash s) ∧
    escape_command_string s = encAll s ∧
    unescape (escape_command_string s) = s :=
  ⟨rfl, escape_eq_encAll s, unescape_escape s⟩

/-- C4: running `[Move(0,60,0), Command("say hi"), Command("say bye")]`
under the default configuration emits exactly one clear directive, for
the region `(0,60,0)`–`(0,128,0)`, and exactly two placements targeting
`(0,60,0)` and `(0,61,0)`; the final base Y is 62, confirming each
command advanced the origin Y by one after placement. -/
theorem c4_concrete_run :
    clearsOf (runMachine defaultConfig (initialState defaultConfig)
        [Instr.move 0 60 0, Instr.command ("say hi".toList),
          Instr.command ("say bye".toList)]).2 =
      [Directive.clear 0 60 0 0 128 0] ∧
    placeTargets (runMachine defaultConfig (initialState defaultConfig)
        [Instr.move 0 60 0, Instr.command ("say hi".toList),
          Instr.command ("say bye".toList)]).2 =
      [(0, 60, 0), (0, 61, 0)] ∧
    (runMachine defaultConfig (initialState defaultConfig)
        [Instr.move 0 60 0, Instr.command ("say hi".toList),
          Instr.command ("say bye".toList)]).1.baseY = 62 :=
  ⟨by decide, by decide, by decide⟩

/-- C5 (counterexample): the line `# move, 9999999999999999, 1, 2`
matches the move regex, but CPython rounds the 16-digit capture to
`10 ^ 16`, so the parsed `Move`'s first field is `10 ^ 16` and not the
float-to-int truncation `9999999999999999` of the numeral. -/
theorem c5_counterexample :
    classifyLinePy 1 ("# move, 9999999999999999, 1, 2".toList) =
      LineResultPy.instr (Instr.move 10000000000000000 1 2) ∧
    numeralTrunc ("9999999999999999".toList) = 9999999999999999 ∧
    (10000000000000000 : ℤ) ≠ 9999999999999999 := by
  refine ⟨?_, by decide, by decide⟩
  exact classifyLinePy_move 1 ("# move, 9999999999999999, 1, 2".toList)
    ("9999999999999999".toList) ("1".toList) ("2".toList) [] 10000000000000000 1 2
    (by decide) intFloatIEEE_nines intFloatIEEE_ok_one intFloatIEEE_ok_two

/-- C5 (amended): for every line matching the move regex whose
captures each carry at most 15 digits, the parsed `Move`'s integer
fields equal the float-to-int truncation of each numeral (digits
before the point, negated under a leading minus), and the CPython
`int(float(...))` conversion of each capture returns exactly that
truncation; a capture of 16 or more digits can instead round to a
different integer (see the counterexample). -/
theorem c5_truncation (n : Nat) (raw g1 g2 g3 rem : List Char)
    (h : matchMoveCore (pyStrip raw) = some ((g1, g2, g3), rem))
    (h1 : g1.countP Char.isDigit ≤ 15) (h2 : g2.countP Char.isDigit ≤ 15)
    (h3 : g3.countP Char.isDigit ≤ 15) :
    classifyLinePy n raw =
      LineResultPy.instr
        (Instr.move (numeralTrunc g1) (numeralTrunc g2) (numeralTrunc g3)) ∧
    intFloatIEEE g1 = IntConv.ok (numeralTrunc g1) ∧
    intFloatIEEE g2 = IntConv.ok (numeralTrunc g2) ∧
    intFloatIEEE g3 = IntConv.ok (numeralTrunc g3) := by
  obtain ⟨-, -, -, ⟨s1, r1, hp1⟩, ⟨s2, r2, hp2⟩, ⟨s3, r3, hp3⟩⟩ :=
    matchMoveCore_spec _ _ _ _ _ h
  have hf1 := intFloatIEEE_ok_of_short _ _ _ hp1 h1
  have hf2 := intFloatIEEE_ok_of_short _ _ _ hp2 h2
  have hf3 := intFloatIEEE_ok_of_short _ _ _ hp3 h3
  exact ⟨classifyLinePy_move n raw g1 g2 g3 rem _ _ _ h hf1 hf2 hf3, hf1, hf2, hf3⟩

/-- C5 witness: `# move, 10.9, -5.2, 0` parses to `Move 10 (-5) 0`
under full CPython float semantics. -/
theorem c5_witness :
    classifyLinePy 1 ("# move, 10.9, -5.2, 0".toList) =
      LineResultPy.instr (Instr.move 10 (-5) 0) := by
  rw [(c5_truncation 1 ("# move, 10.9, -5.2, 0".toList) ("10.9".toList)
    ("-5.2".toList) ("0".toList) [] (by decide) (by decide) (by decide) (by decide)).1]
  decide

/-- C6: a move with `y > 128` emits no clear directive yet still
relocates the base to `(x, y, z)` and resets the per-stack counter; a
move with `y ≤ 128` performs the same state update and additionally
emits one clear directive for the region `(x,y,z)`–`(x,128,z)`. -/
theorem c6_move_clear (cfg : Config) (st : PState) (x y z : Int) :
    (128 < y → stepInstr cfg st (.move x y z) =
      ({ baseX := x, baseY := y, baseZ := z,
         blockCounterOverall := st.blockCounterOverall,
         blockCounterCurrentStack := 0 }, [])) ∧
    (y ≤ 128 → stepInstr cfg st (.move x y z) =
      ({ baseX := x, baseY := y, baseZ := z,
         blockCounterOverall := st.blockCounterOverall,
         blockCounterCurrentStack := 0 }, [Directive.clear x y z x 128 z])) := by
  constructor
  · intro hy
    simp only [stepInstr]
    rw [if_neg (by omega)]
  · intro hy
    simp only [stepInstr]
    rw [if_pos hy]

/-- C6 witness: a move to `y = 200` emits nothing but still updates the
state; a move to `y = 60` emits the clear for `(0,60,0)`–`(0,128,0)`. -/
theorem c6_witness :
    stepInstr defaultConfig (initialState defaultConfig) (.move 0 200 0) =
      ({ baseX := 0, baseY := 200, baseZ := 0, blockCounterOverall := 0,
         blockCounterCurrentStack := 0 }, []) ∧
    stepInstr defaultConfig (initialState defaultConfig) (.move 0 60 0) =
      ({ baseX := 0, baseY := 60, baseZ := 0, blockCounterOverall := 0,
         blockCounterCurrentStack := 0 }, [Directive.clear 0 60 0 0 128 0]) :=
  ⟨(c6_move_clear defaultConfig (initialState defaultConfig) 0 200 0).1 (by norm_num),
   (c6_move_clear defaultConfig (initialState defaultConfig) 0 60 0).2 (by norm_num)⟩

/-- C7: the run reports a missing source exactly when the file cannot
be opened; a readable source of only blank and `# comment` lines yields
the empty instruction sequence (not an error) and the run stops with
the no-instructions report. -/
theorem c7_source_handling :
    (∀ (cfg : Config) (file : Option (List (List Char))),
        mainRun cfg file = .sourceMissing ↔ file = none) ∧
    (∀ (cfg : Config) (ls : List (List Char)), (∀ l ∈ ls, skipLine l) →
        parse_commands_from_file (some ls) = some ([], []) ∧
        mainRun cfg (some ls) = .noInstructions) := by
  constructor
  · intro cfg file
    constructor
    · intro h
      cases file with
      | none => rfl
      | some ls =>
        exfalso
        cases hp : parseLines 1 ls with
        | mk instrs ws =>
          simp only [mainRun, parse_commands_from_file, Option.map_some', hp] at h
          by_cases hi : instrs = []
          · rw [if_pos hi] at h; exact absurd h (by simp)
          · rw [if_neg hi] at h; exact absurd h (by simp)
    · intro h; subst h; rfl
  · intro cfg ls h
    have hp := parseLines_all_skip ls 1 h
    refine ⟨by simp [parse_commands_from_file, hp], ?_⟩
    simp [mainRun, parse_commands_from_file, hp]

/-- C7 witness: a source of one blank line and one comment line parses
to the empty instruction sequence and the run stops without error. -/
theorem c7_witness :
    parse_commands_from_file (some [[' '], ("  # comment x".toList)]) = some ([], []) ∧
    mainRun defaultConfig (some [[' '], ("  # comment x".toList)]) = .noInstructions := by
  refine c7_source_handling.2 defaultConfig _ ?_
  intro l hl
  rcases List.mem_cons.mp hl with rfl | hl2
  · left; decide
  · rcases List.mem_cons.mp hl2 with rfl | hl3
    · right; decide
    · exact absurd hl3 (List.not_mem_nil l)

/-- C8: the rendered clear command is exactly the command name, the
three from-coordinates, the three to-coordinates, the air material id
and the mode `replace`, in that token order; the rendered placement
command is exactly the command name, the three target coordinates, the
block id, the lower-cased state-tag block, the data block with the
escaped text and auto flag, and the mode `replace`; and every placement
the machine emits carries an auto flag of `0b` or `1b`. -/
theorem c8_render_layout :
    (∀ x1 y1 z1 x2 y2 z2 : Int,
        renderClear x1 y1 z1 x2 y2 z2 =
          "fill " ++ toString x1 ++ " " ++ toString y1 ++ " " ++ toString z1 ++ " " ++
            toString x2 ++ " " ++ toString y2 ++ " " ++ toString z2 ++
            " minecraft:air replace") ∧
    (∀ (cfg : Config) (x y z : Int) (blockId autoStr : String) (escaped : List Char),
        renderPlacement cfg x y z blockId autoStr escaped =
          "setblock " ++ toString x ++ " " ++ toString y ++ " " ++ toString z ++ " " ++
            blockId ++ "[facing=" ++ cfg.facing.toLower ++ ",conditional=" ++
            cfg.condition.toLower ++ "]" ++ "\x7bCommand:\"" ++ String.mk escaped ++
            "\",auto:" ++ autoStr ++ "\x7d" ++ " replace") ∧
    (∀ (cfg : Config) (st : PState) (is : List Instr) (x y z : Int)
        (blockId autoStr : String) (escaped : List Char),
        Directive.place x y z blockId autoStr escaped ∈ (runMachine cfg st is).2 →
        autoStr = "0b" ∨ autoStr = "1b") := by
  refine ⟨?_, ?_, fun cfg st is x y z bid a e h => runMachine_auto_mem cfg is st x y z bid a e h⟩
  · intro x1 y1 z1 x2 y2 z2
    simp only [renderClear, toString_string_eq, String.append_assoc]
  · intro cfg x y z bid a e
    simp only [renderPlacement, blockStatesStr, nbtDataStr, toString_string_eq,
      String.append_assoc, String.empty_append, String.append_empty]

/-- C8 witness: the single command of a one-command run is placed with
auto flag `0b`, which the theorem shows is one of the two legal bits. -/
theorem c8_witness : "0b" = "0b" ∨ "0b" = "1b" :=
  c8_render_layout.2.2 defaultConfig (initialState defaultConfig)
    [Instr.command ['h', 'i']] 0 60 0 "minecraft:repeating_command_block" "0b"
    ['h', 'i'] (by decide)

/-- C9 (counterexample): the line `# move, <1 followed by 399 zeros>, 2, 3`
matches the move regex, yet it does not yield a `Move`: `float()` of
the 400-digit capture is infinite, `int()` of it raises an
`OverflowError` that the `except ValueError` handler does not catch,
and the whole parse aborts. -/
theorem c9_counterexample :
    matchMoveCore (pyStrip hugeMoveLine) =
      some ((hugeNumeral, "2".toList, "3".toList), []) ∧
    classifyLinePy 1 hugeMoveLine = LineResultPy.crash ∧
    parseLinesPy 1 [hugeMoveLine] = none := by
  have hDne : hugeNumeral ≠ [] := List.cons_ne_nil _ _
  have hDdig : ∀ c ∈ hugeNumeral, c.isDigit = true := by
    intro c hc
    simp only [hugeNumeral, List.mem_cons] at hc
    rcases hc with rfl | hc
    · decide
    · rw [List.eq_of_mem_replicate hc]
      decide
  have hline : hugeMoveLine = ("# move, ".toList) ++ hugeNumeral ++ (", 2, 3".toList) :=
    rfl
  have hm : matchMoveCore (pyStrip hugeMoveLine) =
      some ((hugeNumeral, "2".toList, "3".toList), []) := by
    rw [hline, pyStrip_hugeShape, matchMoveCore_hugeShape hugeNumeral hDne hDdig]
    rfl
  have hc := classifyLinePy_crash_first 1 hugeMoveLine hugeNumeral ("2".toList)
    ("3".toList) [] hm intFloatIEEE_huge
  exact ⟨hm, hc, parseLinesPy_cons_crash 1 hugeMoveLine [] hc⟩

/-- C9 (amended): every capture of the move regex has the shape
optional minus, digits, optional point, digits, and its `float()`
conversion never raises the `ValueError` the warning branch guards
against, so the malformed-move warning branch is unreachable: the
classifier never returns a warning for any input line.  A
regex-matching line yields a `Move` whenever none of the three
conversions overflows; an overflowing capture instead raises an
uncaught `OverflowError` that aborts the parse (see the
counterexample). -/
theorem c9_no_warning :
    (∀ s g r, parseNum s = some (g, r) →
        groupShape g ∧ intFloatIEEE g ≠ IntConv.valueError) ∧
    (∀ (n : Nat) (raw : List Char) (m : Nat) (tx : List Char),
        classifyLinePy n raw ≠ LineResultPy.warn m tx) ∧
    (∀ (n : Nat) (raw g1 g2 g3 rem : List Char) (x y z : Int),
        matchMoveCore (pyStrip raw) = some ((g1, g2, g3), rem) →
        intFloatIEEE g1 = IntConv.ok x → intFloatIEEE g2 = IntConv.ok y →
        intFloatIEEE g3 = IntConv.ok z →
        classifyLinePy n raw = LineResultPy.instr (Instr.move x y z)) := by
  refine ⟨?_, classifyLinePy_ne_warn, ?_⟩
  · intro s g r h
    obtain ⟨-, hshape, -, neg, ds, fs, hds, hdsd, hfsd, hpy, -, -⟩ :=
      parseNum_spec s g r h
    exact ⟨hshape, intFloatIEEE_ne_valueError g _ hpy⟩
  · intro n raw g1 g2 g3 rem x y z h h1 h2 h3
    exact classifyLinePy_move n raw g1 g2 g3 rem x y z h h1 h2 h3

/-- C9 witness: the capture `12` of `12, 3` is well-shaped and its
conversion is not a `ValueError`, and `# move, 1, 2, 3` classifies as
`Move 1 2 3` under full CPython semantics. -/
theorem c9_witness :
    (groupShape ("12".toList) ∧ intFloatIEEE ("12".toList) ≠ IntConv.valueError) ∧
    classifyLinePy 7 ("# move, 1, 2, 3".toList) =
      LineResultPy.instr (Instr.move 1 2 3) := by
  constructor
  · exact c9_no_warning.1 ("12, 3".toList) ("12".toList) (", 3".toList) (by decide)
  · exact c9_no_warning.2.2 7 ("# move, 1, 2, 3".toList) ("1".toList) ("2".toList)
      ("3".toList) [] 1 2 3 (by decide) intFloatIEEE_ok_one intFloatIEEE_ok_two
      intFloatIEEE_ok_three

/-- C10 (counterexample): on `# move, 9999999999999999, 1, 2 extra`
the trailing text is discarded and the line classifies as a `Move`,
but the first field is `10 ^ 16` — not the truncation
`9999999999999999` of the leading numeral — so "the Move given by the
three leading numerals" fails for a 16-digit capture. -/
theorem c10_counterexample :
    classifyLinePy 1 ("# move, 9999999999999999, 1, 2 extra".toList) =
      LineResultPy.instr (Instr.move 10000000000000000 1 2) ∧
    (10000000000000000 : ℤ) ≠ numeralTrunc ("9999999999999999".toList) := by
  refine ⟨?_, by decide⟩
  exact classifyLinePy_move 1 ("# move, 9999999999999999, 1, 2 extra".toList)
    ("9999999999999999".toList) ("1".toList) ("2".toList) (" extra".toList)
    10000000000000000 1 2 (by decide) intFloatIEEE_nines intFloatIEEE_ok_one
    intFloatIEEE_ok_two

/-- C10 (amended): the move regex matches a prefix of the stripped
line — the unmatched remainder is a suffix that is silently discarded,
never producing a warning or a `Command` — and whenever every capture
has at most 15 digits the line classifies as the `Move` of the three
leading numerals' truncations; a longer capture can round to a
different value or overflow (see the counterexample). -/
theorem c10_trailing_text :
    (∀ t g1 g2 g3 rem, matchMoveCore t = some ((g1, g2, g3), rem) →
        ∃ p, t = p ++ rem) ∧
    (∀ (n : Nat) (raw g1 g2 g3 rem : List Char),
        matchMoveCore (pyStrip raw) = some ((g1, g2, g3), rem) →
        g1.countP Char.isDigit ≤ 15 → g2.countP Char.isDigit ≤ 15 →
        g3.countP Char.isDigit ≤ 15 →
        classifyLinePy n raw =
          LineResultPy.instr
            (Instr.move (numeralTrunc g1) (numeralTrunc g2) (numeralTrunc g3))) := by
  refine ⟨fun t g1 g2 g3 rem h => (matchMoveCore_spec t g1 g2 g3 rem h).1, ?_⟩
  intro n raw g1 g2 g3 rem h h1 h2 h3
  obtain ⟨-, -, -, ⟨s1, r1, hp1⟩, ⟨s2, r2, hp2⟩, ⟨s3, r3, hp3⟩⟩ :=
    matchMoveCore_spec _ _ _ _ _ h
  exact classifyLinePy_move n raw g1 g2 g3 rem _ _ _ h
    (intFloatIEEE_ok_of_short _ _ _ hp1 h1) (intFloatIEEE_ok_of_short _ _ _ hp2 h2)
    (intFloatIEEE_ok_of_short _ _ _ hp3 h3)

/-- C10 witness: `# move, 1, 2, 3 extra` is matched as a prefix with
remainder ` extra` and classifies as `Move 1 2 3`. -/
theorem c10_witness :
    (∃ p, ("# move, 1, 2, 3 extra".toList) = p ++ (" extra".toList)) ∧
    classifyLinePy 1 ("# move, 1, 2, 3 extra".toList) =
      LineResultPy.instr (Instr.move 1 2 3) := by
  constructor
  · exact c10_trailing_text.1 ("# move, 1, 2, 3 extra".toList) ("1".toList)
      ("2".toList) ("3".toList) (" extra".toList) (by decide)
  · rw [c10_trailing_text.2 1 ("# move, 1, 2, 3 extra".toList) ("1".toList)
      ("2".toList) ("3".toList) (" extra".toList) (by decide) (by decide) (by decide)
      (by decide)]
    decide

end Lkjmc

